import Mathlib

/-!
Verification of the text-segmentation engine of `app/core/text_processing.py`.

Python strings are embedded as `List Char` (`Str`).  Python's built-in string
operations (`strip`, `split`, `find`, `rfind`, slicing) are translated into
executable Lean functions below; the module's own functions are then translated
one-to-one, keeping the source's names.  Loops that walk a cursor through the
text are translated with an explicit structural fuel argument (always
instantiated so that it cannot run out on the Python-reachable inputs), so that
every definition evaluates by kernel reduction.

Numeric notes, used throughout:
* Python float thresholds `max_length * 0.5 / 0.4 / 0.3` and `len(words) * 0.1`
  are embedded as the exact rational comparisons `2*b > m`, `5*b > 2*m`,
  `10*b > 3*m`, `10*d < n`; these agree with the float evaluation at every
  realistically sized input (the float relative error is ~1e-16).
* Python `//` is floor division, embedded as `Int.fdiv`; `int(x)` truncates
  toward zero, embedded as `pyInt`.
-/

abbrev Str := List Char

/-- Python whitespace (the ASCII characters recognised by `str.strip`/`str.split`). -/
def isWs (c : Char) : Bool :=
  c == ' ' || c == '\t' || c == '\n' || c == '\r' || c == '\x0b' || c == '\x0c'

/-- Python `s.strip()`. -/
def pyStrip (s : Str) : Str :=
  ((s.dropWhile isWs).reverse.dropWhile isWs).reverse

/-- Python `s.lower()` (ASCII). -/
def pyLower (s : Str) : Str := s.map Char.toLower

/-- Python `s.split()`: split on whitespace runs, discarding empty pieces.
`acc` holds the current word, reversed. -/
def pySplitAux : Str → Str → List Str
  | [], acc => if acc = [] then [] else [acc.reverse]
  | c :: cs, acc =>
    if isWs c then
      if acc = [] then pySplitAux cs [] else acc.reverse :: pySplitAux cs []
    else pySplitAux cs (c :: acc)

def pySplit (s : Str) : List Str := pySplitAux s []

/-- First index `i ≥ start` at which `sub` occurs in `s`; `none` when Python
`s.find(sub, start)` returns `-1`.  Structural recursion on the tail
`rest = s.drop i`. -/
def findFromAux (sub : Str) : Str → ℕ → Option ℕ
  | [], i => if sub.isPrefixOf [] then some i else none
  | c :: cs, i => if sub.isPrefixOf (c :: cs) then some i else findFromAux sub cs (i + 1)

def findFrom (s sub : Str) (start : ℕ) : Option ℕ :=
  findFromAux sub (s.drop start) start

/-- Greatest `i < n` with `p i`, `none` if there is none. -/
def maxSat (n : ℕ) (p : ℕ → Bool) : Option ℕ :=
  ((List.range n).filter p).getLast?

/-- Python `s.rfind(' ', 0, stop)`: the greatest index of a space character
strictly below `stop` (and below `s.length`); `none` for `-1`. -/
def rfindSpaceBefore (s : Str) (stop : ℕ) : Option ℕ :=
  maxSat (min stop s.length) (fun i => s.getD i 'x' == ' ')

/-- Fixed-size windows: Python `[s[i:i+size] for i in range(0, len(s), size)]`.
Fuel-structural; `chunksOf` supplies fuel `s.length`, enough whenever
`size ≥ 1` (for `size = 0` Python raises `ValueError`; no caller does that). -/
def chunksOfAux (size : ℕ) : ℕ → Str → List Str
  | 0, _ => []
  | fuel + 1, s =>
    if s = [] then [] else s.take size :: chunksOfAux size fuel (s.drop size)

def chunksOf (size : ℕ) (s : Str) : List Str := chunksOfAux size s.length s

/-- Python `s.split(delim)` for a non-empty `delim` (every use site passes a
non-empty literal).  Fuel-structural; each step removes at least `delim.length ≥ 1`
characters, so fuel `s.length` never runs out. -/
def pySplitOnAux (delim : Str) : ℕ → Str → List Str
  | 0, s => [s]
  | fuel + 1, s =>
    match findFrom s delim 0 with
    | none => [s]
    | some i => s.take i :: pySplitOnAux delim fuel (s.drop (i + delim.length))

def pySplitOn (s delim : Str) : List Str := pySplitOnAux delim s.length s

/-- Python `int(x)` on a float/rational: truncation toward zero. -/
def pyInt (q : ℚ) : ℤ := if 0 ≤ q then ⌊q⌋ else -⌊-q⌋

/-- The non-whitespace character stream of a string: the invariant content that
chunking is supposed to preserve in order. -/
def nws (s : Str) : Str := s.filter (fun c => !(isWs c))

def squote : Char := Char.ofNat 39

def dquote : Char := Char.ofNat 34

/-! ## Regular-expression models

The module uses two regexes: `r'\n\s*\n'` (paragraph break) with `re.finditer`
and `re.split`, and `r'(?<=[.!?])\s+'` (sentence separator) with `re.split`.
Both match only whitespace, which is what all proofs below rely on. -/

/-- One attempted match of `r'\n\s*\n'` at position `i`: a `'\n'`, then a
greedy run of whitespace that is backtracked to end at its last `'\n'`.
Returns the exclusive end position of the match. -/
def paraMatchAt (s : Str) (i : ℕ) : Option ℕ :=
  if s.getD i 'x' = '\n' then
    match maxSat ((s.drop (i + 1)).takeWhile isWs).length
        (fun k => s.getD (i + 1 + k) 'x' == '\n') with
    | some k => some (i + 1 + k + 1)
    | none => none
  else none

/-- `re.finditer(r'\n\s*\n', s)` starting the scan at position `i`:
the non-overlapping leftmost `(start, end)` pairs.  Fuel-structural; fuel
`s.length + 1` suffices since every step advances the cursor. -/
def paraMatchesAux (s : Str) : ℕ → ℕ → List (ℕ × ℕ)
  | 0, _ => []
  | fuel + 1, i =>
    if s.length ≤ i then []
    else
      match paraMatchAt s i with
      | some e => (i, e) :: paraMatchesAux s fuel e
      | none => paraMatchesAux s fuel (i + 1)

def paraMatches (s : Str) : List (ℕ × ℕ) := paraMatchesAux s (s.length + 1) 0

/-- The segments of `re.split`, given the match list: the text between
consecutive matches (and before the first / after the last). -/
def segsFrom (s : Str) : ℕ → List (ℕ × ℕ) → List Str
  | start, [] => [s.drop start]
  | start, (a, b) :: ms => (s.drop start).take (a - start) :: segsFrom s b ms

/-- `re.split(r'\n\s*\n', s)`. -/
def reParaSplit (s : Str) : List Str := segsFrom s 0 (paraMatches s)

/-! `re.split(r'(?<=[.!?])\s+', s)`: split at every maximal whitespace run
immediately preceded by `.`, `!` or `?`.  `sentSplitAux` carries the previous
character (for the lookbehind) and the current segment reversed;
`sentSplitSkip` consumes the matched whitespace run. -/
mutual

def sentSplitAux : Str → Char → Str → List Str
  | [], _, acc => [acc.reverse]
  | c :: cs, prev, acc =>
    if isWs c && (prev == '.' || prev == '!' || prev == '?') then
      acc.reverse :: sentSplitSkip cs
    else sentSplitAux cs c (c :: acc)

def sentSplitSkip : Str → List Str
  | [] => [[]]
  | c :: cs => if isWs c then sentSplitSkip cs else sentSplitAux cs c [c]

end

def reSentenceSplit : Str → List Str
  | [] => [[]]
  | c :: cs => sentSplitAux cs c [c]

/-! ## Streaming splitters (`split_text_for_streaming` and helpers) -/

/-- The accumulation loop of `_split_by_words` (source lines 245-267):
`cur` is `current_chunk`. -/
def splitByWordsLoop (maxLength : ℕ) : List Str → Str → List Str
  | [], cur => if cur = [] then [] else [pyStrip cur]
  | w :: ws, cur =>
    if cur.length + w.length + 1 ≤ maxLength then
      splitByWordsLoop maxLength ws (if cur = [] then w else cur ++ [' '] ++ w)
    else
      (if cur = [] then [] else [pyStrip cur]) ++
      (if maxLength < w.length then
        chunksOf maxLength w ++ splitByWordsLoop maxLength ws []
      else splitByWordsLoop maxLength ws w)

/-- `_split_by_words` (source lines 239-269). -/
def _split_by_words (text : Str) (maxLength : ℕ) : List Str :=
  (splitByWordsLoop maxLength (pySplit text) []).filter (fun c => pyStrip c ≠ [])

/-- The inner regrouping loop of `_split_long_sentence` (source lines 296-306):
rejoin the delimiter-split `parts` greedily, re-inserting the delimiter inside a
group; the delimiter between two groups is dropped, exactly as in the source. -/
def regroupParts (delim : Str) (maxLength : ℕ) : List Str → Str → List Str
  | [], cur => if cur = [] then [] else [cur]
  | p :: ps, cur =>
    if cur.length + delim.length + p.length ≤ maxLength then
      regroupParts delim maxLength ps (cur ++ (if cur = [] then [] else delim) ++ p)
    else
      (if cur = [] then [] else [cur]) ++ regroupParts delim maxLength ps p

/-- The delimiter list of `_split_long_sentence` (source line 286). -/
def subDelimiters : List Str :=
  [(", ").data, ("; ").data, (" - ").data, (" — ").data, (": ").data,
   (" and ").data, (" or ").data, (" but ").data]

/-- The fold of `_split_long_sentence` over its delimiters (source lines 288-307). -/
def splitLongSentenceFold (maxLength : ℕ) : List Str → List Str → List Str
  | [], chunks => chunks
  | d :: ds, chunks =>
    splitLongSentenceFold maxLength ds
      (chunks.flatMap fun c =>
        if c.length ≤ maxLength then [c] else regroupParts d maxLength (pySplitOn c d) [])

/-- `_split_long_sentence` (source lines 283-318). -/
def _split_long_sentence (sentence : Str) (maxLength : ℕ) : List Str :=
  let chunks := splitLongSentenceFold maxLength subDelimiters [sentence]
  let finalChunks := chunks.flatMap fun c =>
    if c.length ≤ maxLength then [c] else _split_by_words c maxLength
  (finalChunks.map pyStrip).filter (fun c => c ≠ [])

/-- The accumulation loop of `_split_by_sentences` (source lines 209-234). -/
def splitBySentencesLoop (maxLength : ℕ) : List Str → Str → List Str
  | [], cur => if cur = [] then [] else [pyStrip cur]
  | s :: ss, cur =>
    let s := pyStrip s
    if s = [] then splitBySentencesLoop maxLength ss cur
    else if cur.length + s.length + 1 ≤ maxLength then
      splitBySentencesLoop maxLength ss (if cur = [] then s else cur ++ [' '] ++ s)
    else
      (if cur = [] then [] else [pyStrip cur]) ++
      (if maxLength < s.length then
        _split_long_sentence s maxLength ++ splitBySentencesLoop maxLength ss []
      else splitBySentencesLoop maxLength ss s)

/-- `_split_by_sentences` (source lines 200-236). -/
def _split_by_sentences (text : Str) (maxLength : ℕ) : List Str :=
  (splitBySentencesLoop maxLength (reSentenceSplit (pyStrip text)) []).filter
    (fun c => pyStrip c ≠ [])

/-- The accumulation loop of `_split_by_paragraphs` (source lines 170-195). -/
def splitByParagraphsLoop (maxLength : ℕ) : List Str → Str → List Str
  | [], cur => if cur = [] then [] else [pyStrip cur]
  | p :: ps, cur =>
    let p := pyStrip p
    if p = [] then splitByParagraphsLoop maxLength ps cur
    else if cur.length + p.length + 2 ≤ maxLength then
      splitByParagraphsLoop maxLength ps (if cur = [] then p else cur ++ ['\n', '\n'] ++ p)
    else
      (if cur = [] then [] else [pyStrip cur]) ++
      (if maxLength < p.length then
        _split_by_sentences p maxLength ++ splitByParagraphsLoop maxLength ps []
      else splitByParagraphsLoop maxLength ps p)

/-- `_split_by_paragraphs` (source lines 163-197). -/
def _split_by_paragraphs (text : Str) (maxLength : ℕ) : List Str :=
  (splitByParagraphsLoop maxLength (reParaSplit (pyStrip text)) []).filter
    (fun c => pyStrip c ≠ [])

/-- `_split_by_fixed_size` (source lines 272-280); note the input is not stripped. -/
def _split_by_fixed_size (text : Str) (chunkSize : ℕ) : List Str :=
  ((chunksOf chunkSize text).map pyStrip).filter (fun c => c ≠ [])

/-- Python `x or default` for an optional int (`None` and `0` are falsy). -/
def orI (x : Option ℤ) (d : ℤ) : ℤ :=
  match x with
  | none => d
  | some v => if v = 0 then d else v

/-- Python `x or default` for an optional string (`None` and `""` are falsy). -/
def orS (x : Option Str) (d : Str) : Str :=
  match x with
  | none => d
  | some v => if v = [] then d else v

/-- The quality-preset block of `split_text_for_streaming` (source lines
133-143): fill in `chunk_size`/`strategy` only where they are falsy. -/
def streamingPreset (chunkSize : Option ℤ) (strategy quality : Option Str) :
    Option ℤ × Option Str :=
  match quality with
  | none => (chunkSize, strategy)
  | some q =>
    if q = [] then (chunkSize, strategy)
    else if q = ("fast").data then
      (some (orI chunkSize 100), some (orS strategy (("word").data)))
    else if q = ("balanced").data then
      (some (orI chunkSize 200), some (orS strategy (("sentence").data)))
    else if q = ("high").data then
      (some (orI chunkSize 300), some (orS strategy (("paragraph").data)))
    else (chunkSize, strategy)

/-- `split_text_for_streaming` (source lines 115-160).  Negative resolved chunk
sizes (for which Python raises or degenerates) are outside every claim; the
helpers receive `cs.toNat`. -/
def split_text_for_streaming (text : Str) (chunkSize : Option ℤ)
    (strategy : Option Str) (quality : Option Str) : List Str :=
  let p : Option ℤ × Option Str := streamingPreset chunkSize strategy quality
  let cs : ℤ := orI p.1 200
  let strat : Str := orS p.2 (("sentence").data)
  if strat = ("paragraph").data then _split_by_paragraphs text cs.toNat
  else if strat = ("sentence").data then _split_by_sentences text cs.toNat
  else if strat = ("word").data then _split_by_words text cs.toNat
  else if strat = ("fixed").data then _split_by_fixed_size text cs.toNat
  else _split_by_sentences text cs.toNat

/-! ## The boundary finder (`_find_best_split_point` and its tiers) -/

/-- `sentence_endings` (source line 597). -/
def sentenceEndings : List Str :=
  [['.', ' '], ['!', ' '], ['?', ' '], ['.', '\n'], ['!', '\n'], ['?', '\n'],
   ['.', dquote], ['!', dquote], ['?', dquote], ['.', squote], ['!', squote], ['?', squote]]

/-- `clause_delimiters` (source line 624). -/
def clauseDelimiters : List Str :=
  [(", ").data, ("; ").data, (": ").data, (" - ").data, (" — ").data,
   (" and ").data, (" or ").data, (" but ").data, (" while ").data,
   (" when ").data]

/-- The inner `while` loop of `_try_split_at_sentences` / `_try_split_at_clauses`
(source lines 601-612, 628-639) for one delimiter: scan occurrences left to
right from `pos`, overwriting `best` with each admissible end, stopping at the
first end beyond `maxLength`.  Fuel-structural; fuel `text.length + 1` suffices
since the cursor strictly advances. -/
def scanOneAux (text ending : Str) (maxLength : ℕ) : ℕ → ℕ → Option ℕ → Option ℕ
  | 0, _, best => best
  | fuel + 1, pos, best =>
    if text.length ≤ pos then best
    else
      match findFrom text ending pos with
      | none => best
      | some found =>
        if found + ending.length ≤ maxLength then
          scanOneAux text ending maxLength fuel (found + 1) (some (found + ending.length))
        else best

/-- The outer `for ending in ...` loop shared by the sentence and clause tiers:
note that `best` is simply overwritten across delimiter variants. -/
def scanEndings (text : Str) (endings : List Str) (maxLength : ℕ) : Option ℕ :=
  endings.foldl (fun best e => scanOneAux text e maxLength (text.length + 1) 0 best) none

/-- The `for match in matches` loop of `_try_split_at_paragraphs`
(source lines 578-584). -/
def paraBestLoop (maxLength : ℕ) : List (ℕ × ℕ) → Option ℕ → Option ℕ
  | [], best => best
  | m :: ms, best => if m.2 ≤ maxLength then paraBestLoop maxLength ms (some m.2) else best

/-- `_try_split_at_paragraphs` (source lines 568-591); the float threshold
`best_split > max_length * 0.5` is the exact `maxLength < 2 * b`. -/
def _try_split_at_paragraphs (text : Str) (maxLength overlapChars : ℕ) : Option (Str × Str) :=
  let ms := paraMatches text
  if ms = [] then none
  else
    match paraBestLoop maxLength ms none with
    | none => none
    | some b =>
      if 0 < b ∧ maxLength < 2 * b then
        some (pyStrip (text.take b), pyStrip (text.drop (b - overlapChars)))
      else none

/-- `_try_split_at_sentences` (source lines 594-619); threshold
`best_split > max_length * 0.4` is the exact `2 * maxLength < 5 * b`. -/
def _try_split_at_sentences (text : Str) (maxLength overlapChars : ℕ) : Option (Str × Str) :=
  match scanEndings text sentenceEndings maxLength with
  | none => none
  | some b =>
    if 0 < b ∧ 2 * maxLength < 5 * b then
      some (pyStrip (text.take b), pyStrip (text.drop (b - overlapChars)))
    else none

/-- `_try_split_at_clauses` (source lines 622-646); threshold
`best_split > max_length * 0.3` is the exact `3 * maxLength < 10 * b`. -/
def _try_split_at_clauses (text : Str) (maxLength overlapChars : ℕ) : Option (Str × Str) :=
  match scanEndings text clauseDelimiters maxLength with
  | none => none
  | some b =>
    if 0 < b ∧ 3 * maxLength < 10 * b then
      some (pyStrip (text.take b), pyStrip (text.drop (b - overlapChars)))
    else none

/-- `_split_at_words` (source lines 649-663). -/
def _split_at_words (text : Str) (maxLength overlapChars : ℕ) : Str × Str :=
  if text.length ≤ maxLength then (text, [])
  else
    let splitPos :=
      match rfindSpaceBefore text maxLength with
      | some j => j
      | none => maxLength
    (pyStrip (text.take splitPos), pyStrip (text.drop (splitPos - overlapChars)))

/-- `_find_best_split_point` (source lines 539-565). -/
def _find_best_split_point (text : Str) (maxLength overlapChars : ℕ) : Str × Str :=
  if text.length ≤ maxLength then (text, [])
  else
    match _try_split_at_paragraphs text maxLength overlapChars with
    | some r => r
    | none =>
      match _try_split_at_sentences text maxLength overlapChars with
      | some r => r
      | none =>
        match _try_split_at_clauses text maxLength overlapChars with
        | some r => r
        | none => _split_at_words text maxLength overlapChars

/-! ## `chunk_text` and its strategies -/

/-- The `while remaining_text` loop of `_chunk_hierarchical` (source lines
491-503).  Fuel-structural; for `maxLength ≥ 1` every iteration strictly
shortens the remaining text (proved below), so the fuel `length + 1` supplied
by `_chunk_hierarchical` never runs out.  (For `maxLength = 0`, which no caller
can produce, the Python loop would not terminate.) -/
def chunkHierLoop (maxLength : ℕ) : ℕ → Str → List Str
  | 0, _ => []
  | fuel + 1, remaining =>
    if remaining = [] then []
    else if remaining.length ≤ maxLength then [remaining]
    else
      let r := _find_best_split_point remaining maxLength 0
      let r :=
        if r.1 = [] then (pyStrip (remaining.take maxLength), pyStrip (remaining.drop maxLength))
        else r
      r.1 :: chunkHierLoop maxLength fuel r.2

/-- `_chunk_hierarchical` (source lines 485-505). -/
def _chunk_hierarchical (text : Str) (maxLength : ℕ) : List Str :=
  (chunkHierLoop maxLength ((pyStrip text).length + 1) (pyStrip text)).filter (fun c => c ≠ [])

/-- The merge loop of `_chunk_by_paragraphs` (source lines 427-440);
`cur = none` models Python's `current = None`. -/
def chunkByParagraphsLoop (maxLength : ℕ) : List Str → Option Str → List Str
  | [], none => []
  | [], some cur => if cur = [] then [] else _chunk_hierarchical cur maxLength
  | p :: ps, none => chunkByParagraphsLoop maxLength ps (some p)
  | p :: ps, some cur =>
    let cand := cur ++ ['\n', '\n'] ++ p
    if cand.length ≤ maxLength then chunkByParagraphsLoop maxLength ps (some cand)
    else _chunk_hierarchical cur maxLength ++ chunkByParagraphsLoop maxLength ps (some p)

/-- `_chunk_by_paragraphs` (source lines 417-442). -/
def _chunk_by_paragraphs (text : Str) (maxLength : ℕ) : List Str :=
  let paragraphs := (reParaSplit text).filterMap
    (fun seg => if pyStrip seg = [] then none else some (pyStrip seg))
  if paragraphs = [] then _chunk_hierarchical text maxLength
  else chunkByParagraphsLoop maxLength paragraphs none

/-- The packing loop of `_chunk_by_words` (source lines 456-473). -/
def chunkByWordsLoop (maxLength : ℕ) : List Str → List Str → ℕ → List Str
  | [], currentWords, _ =>
    if currentWords = [] then []
    else if pyStrip (List.intercalate [' '] currentWords) = [] then []
    else [pyStrip (List.intercalate [' '] currentWords)]
  | w :: ws, currentWords, currentLength =>
    let additional := if currentWords = [] then w.length else w.length + 1
    if currentWords ≠ [] ∧ maxLength < currentLength + additional then
      (if pyStrip (List.intercalate [' '] currentWords) = [] then []
       else [pyStrip (List.intercalate [' '] currentWords)]) ++
      chunkByWordsLoop maxLength ws [w] w.length
    else chunkByWordsLoop maxLength ws (currentWords ++ [w]) (currentLength + additional)

/-- `_chunk_by_words` (source lines 445-482). -/
def _chunk_by_words (text : Str) (maxLength : ℕ) : List Str :=
  let words := pySplit text
  if words = [] then []
  else
    (chunkByWordsLoop maxLength words [] 0).flatMap
      (fun c => if maxLength < c.length then _chunk_hierarchical c maxLength else [c])

/-- Modelled from the spec: the configuration provider (`app.config.Config` is
not among the sources) exposing the named thresholds of spec §6 — "default
chunk length, long-text chunk size, long-text chunking strategy, an absolute
hard maximum total length, and minimum/maximum bounds for long-text
validation".  The module only reads these values, so they are threaded through
as an explicit parameter. -/
structure PyConfig where
  MAX_TOTAL_LENGTH : ℤ
  LONG_TEXT_CHUNK_SIZE : ℤ
  LONG_TEXT_CHUNKING_STRATEGY : Str
  longTextMinLength : ℤ
  longTextMaxLength : ℤ

/-- The resolution of `max_length` in `chunk_text` (source lines 386-392):
default the argument, cap it by `Config.MAX_TOTAL_LENGTH - 100`, and fall back
to the uncapped value when the cap is non-positive. -/
def chunkTextEffectiveMax (cfg : PyConfig) (maxLength : Option ℤ) : ℤ :=
  let maxLength : ℤ :=
    match maxLength with
    | none => cfg.LONG_TEXT_CHUNK_SIZE
    | some m => if m ≤ 0 then cfg.LONG_TEXT_CHUNK_SIZE else m
  let effectiveMax : ℤ := min maxLength (cfg.MAX_TOTAL_LENGTH - 100)
  if effectiveMax ≤ 0 then maxLength else effectiveMax

/-- `chunk_text` (source lines 383-414). -/
def chunk_text (cfg : PyConfig) (text : Str) (strategy : Str) (maxLength : Option ℤ) :
    List Str :=
  let effectiveMax : ℤ := chunkTextEffectiveMax cfg maxLength
  let cleaned := pyStrip text
  if cleaned = [] then []
  else
    let normalizedStrategy := pyLower (if strategy = [] then ("sentence").data else strategy)
    if normalizedStrategy = ("fixed").data then
      ((chunksOf effectiveMax.toNat cleaned).map pyStrip).filter (fun c => c ≠ [])
    else if normalizedStrategy = ("paragraph").data then
      _chunk_by_paragraphs cleaned effectiveMax.toNat
    else if normalizedStrategy = ("word").data then
      _chunk_by_words cleaned effectiveMax.toNat
    else _chunk_hierarchical cleaned effectiveMax.toNat

/-- `LongTextChunk` (from `app.models.long_text`, used at source lines 524-536). -/
structure LongTextChunk where
  index : ℕ
  text : Str
  text_preview : Str
  character_count : ℕ
deriving DecidableEq

/-- `split_text_for_long_generation` (source lines 508-536). -/
def split_text_for_long_generation (cfg : PyConfig) (text : Str)
    (maxChunkSize : Option ℤ) (strategy : Option Str) : List LongTextChunk :=
  let maxChunkSize : ℤ :=
    match maxChunkSize with
    | none => cfg.LONG_TEXT_CHUNK_SIZE
    | some m => if m ≤ 0 then cfg.LONG_TEXT_CHUNK_SIZE else m
  let resolvedStrategy := orS strategy cfg.LONG_TEXT_CHUNKING_STRATEGY
  let chunkStrings := chunk_text cfg text resolvedStrategy (some maxChunkSize)
  chunkStrings.enum.map (fun p =>
    { index := p.1, text := p.2,
      text_preview := p.2.take 50 ++ (if 50 < p.2.length then ("...").data else []),
      character_count := p.2.length })

/-! ## Auxiliary policy functions -/

/-- `estimate_processing_time` (source lines 666-693); Python `//` is `Int.fdiv`
and `int(...)` is `pyInt`. -/
def estimate_processing_time (cfg : PyConfig) (textLength : ℕ)
    (avgCharsPerSecond : ℚ) (chunkSize : Option ℤ) : ℤ :=
  let baseTime : ℚ := (textLength : ℚ) / avgCharsPerSecond
  let ecs : ℤ := orI chunkSize cfg.LONG_TEXT_CHUNK_SIZE
  let ecs : ℤ := if ecs ≤ 0 then cfg.LONG_TEXT_CHUNK_SIZE else ecs
  let numChunks : ℤ := max 1 (Int.fdiv ((textLength : ℤ) + ecs - 1) ecs)
  let overhead : ℤ := 5 + numChunks * 2 + 10
  pyInt (baseTime + (overhead : ℚ))

/-- Spec-side (claim C5): the effective chunk size — the caller's override
unless it is absent or non-positive, in which case the configured long-text
chunk size. -/
def claimEffectiveChunkSize (cfg : PyConfig) (cs : Option ℤ) : ℤ :=
  match cs with
  | none => cfg.LONG_TEXT_CHUNK_SIZE
  | some c => if c ≤ 0 then cfg.LONG_TEXT_CHUNK_SIZE else c

/-- `validate_long_text_input` (source lines 696-726).  The float comparison
`len(set(words)) < len(words) * 0.1` is embedded as the exact rational
`10 * distinct < total`. -/
def validate_long_text_input (cfg : PyConfig) (text : Str) : Bool × String :=
  if pyStrip text = [] then (false, "Input text cannot be empty")
  else
    let textLength := (pyStrip text).length
    if (textLength : ℤ) < cfg.longTextMinLength then
      (false, ("Text must be at least ") ++ toString cfg.longTextMinLength ++
        (" characters for long-text processing (received ") ++ toString textLength ++
        (" characters)"))
    else if cfg.longTextMaxLength < (textLength : ℤ) then
      (false, ("Text is too long (") ++ toString textLength ++
        (" characters). Maximum allowed: ") ++ toString cfg.longTextMaxLength)
    else
      let words := pySplit text
      if 10 * words.dedup.length < words.length then
        (false, "Text appears to be excessively repetitive")
      else (true, "")

/-- `concatenate_audio_chunks` (source lines 353-380).  An audio segment is one
channel row of samples (shape `(1, n)`); `torch.cat(..., dim=1)` appends rows.
The empty-input case, where Python raises `IndexError`, is `none`; the
`torch.no_grad` / `gc.collect` resource management has no value-level effect. -/
def concatenate_audio_chunks (audioChunks : List (List ℚ)) (sampleRate : ℕ) :
    Option (List ℚ) :=
  match audioChunks with
  | [] => none
  | [c] => some c
  | c :: cs =>
    let silenceSamples := (pyInt ((1 / 10 : ℚ) * (sampleRate : ℚ))).toNat
    let silence := List.replicate silenceSamples (0 : ℚ)
    some (cs.foldl (fun acc chunk => acc ++ silence ++ chunk) c)

/-! ## Spec-side definitions for claim C2 (refinement targets) -/

/-- Spec-side, for one delimiter variant: the end position of its rightmost
occurrence whose end is at or before `maxLength`. -/
def lastAdmissibleEnd (text e : Str) (maxLength : ℕ) : Option ℕ :=
  (maxSat text.length
    (fun i => e.isPrefixOf (text.drop i) && decide (i + e.length ≤ maxLength))).map
    (· + e.length)

/-- Spec-side, the claim C2 as stated: "the maximum end position over every
occurrence of every delimiter variant that is at or before max_length". -/
def specRightmostBoundary (text : Str) (endings : List Str) (maxLength : ℕ) : Option ℕ :=
  maxSat (maxLength + 1) (fun b =>
    endings.any (fun e => decide (e.length ≤ b) && e.isPrefixOf (text.drop (b - e.length))))

/-- Spec-side, the corrected behaviour: each variant contributes its rightmost
admissible occurrence, and the last variant (in scan order) that has one wins. -/
def lastVariantChoice (text : Str) (endings : List Str) (maxLength : ℕ) : Option ℕ :=
  (endings.filterMap (fun e => lastAdmissibleEnd text e maxLength)).getLast?

/-- Validity of a (tail of a) `finditer` match list produced while scanning
from position `i`: matches are in order, within bounds, non-empty, and cover
only whitespace. -/
def MatchesValid (s : Str) : ℕ → List (ℕ × ℕ) → Prop
  | _, [] => True
  | i, (a, b) :: ms =>
    i ≤ a ∧ a < b ∧ b ≤ s.length ∧
    (∀ j, a ≤ j → j < b → isWs (s.getD j 'x') = true) ∧ MatchesValid s b ms

/-- The concatenated non-whitespace content of a chunk list. -/
def nwsJoin (l : List Str) : Str := (l.map nws).flatten

/-! # Theorems

## Basic facts about the string primitives -/

theorem nws_append (a b : Str) : nws (a ++ b) = nws a ++ nws b :=
  List.filter_append ..

theorem nws_take_drop (s : Str) (n : ℕ) : nws (s.take n) ++ nws (s.drop n) = nws s := by
  rw [← nws_append, List.take_append_drop]

theorem nws_reverse (s : Str) : nws s.reverse = (nws s).reverse :=
  List.filter_reverse ..

theorem nws_dropWhile (s : Str) : nws (s.dropWhile isWs) = nws s := by
  induction s with
  | nil => rfl
  | cons c cs ih =>
    by_cases h : isWs c
    · simpa [nws, List.dropWhile_cons, h] using ih
    · simp [nws, List.dropWhile_cons, h]

theorem nws_pyStrip (s : Str) : nws (pyStrip s) = nws s := by
  unfold pyStrip
  rw [nws_reverse, nws_dropWhile, nws_reverse, List.reverse_reverse, nws_dropWhile]

theorem pyStrip_length_le (s : Str) : (pyStrip s).length ≤ s.length := by
  unfold pyStrip
  calc ((s.dropWhile isWs).reverse.dropWhile isWs).reverse.length
      = ((s.dropWhile isWs).reverse.dropWhile isWs).length := List.length_reverse ..
    _ ≤ (s.dropWhile isWs).reverse.length := (List.dropWhile_suffix _).length_le
    _ = (s.dropWhile isWs).length := List.length_reverse ..
    _ ≤ s.length := (List.dropWhile_suffix _).length_le

theorem pyStrip_eq_nil_iff (s : Str) : pyStrip s = [] ↔ nws s = [] := by
  constructor
  · intro h
    have := nws_pyStrip s
    rw [h] at this
    exact this.symm
  · intro h
    have hall : ∀ c ∈ s, isWs c = true := by
      intro c hc
      by_contra hne
      have : c ∈ nws s := List.mem_filter.mpr ⟨hc, by simpa using hne⟩
      simp [h] at this
    unfold pyStrip
    have h1 : s.dropWhile isWs = [] := List.dropWhile_eq_nil_iff.mpr hall
    simp [h1]

theorem pyStrip_ne_nil_iff (s : Str) : pyStrip s ≠ [] ↔ nws s ≠ [] :=
  not_congr (pyStrip_eq_nil_iff s)

theorem dropWhile_head_not {p : Char → Bool} {s t : Str} {c : Char}
    (h : s.dropWhile p = c :: t) : p c = false := by
  induction s with
  | nil => simp at h
  | cons a as ih =>
    rw [List.dropWhile_cons] at h
    by_cases hp : p a
    · exact ih (by simpa [hp] using h)
    · simp [hp] at h
      simp [← h.1, Bool.not_eq_true] at hp ⊢
      exact hp

theorem dropWhile_eq_self_of_head {p : Char → Bool} {s : Str} {c : Char} {t : Str}
    (hs : s = c :: t) (hc : p c = false) : s.dropWhile p = s := by
  subst hs
  simp [List.dropWhile_cons, hc]

/-- `pyStrip` is `trimRight ∘ dropWhile`; the right trim is a prefix of its input. -/
theorem trimRight_prefix (s : Str) : (s.reverse.dropWhile isWs).reverse <+: s := by
  have h1 : s.reverse.dropWhile isWs <:+ s.reverse := List.dropWhile_suffix ..
  have := List.reverse_prefix.mpr h1
  simpa using this

/-- The first character of a non-empty stripped string is not whitespace. -/
theorem pyStrip_head_not_ws {s : Str} {c : Char} {t : Str}
    (h : pyStrip s = c :: t) : isWs c = false := by
  unfold pyStrip at h
  have hpre : (((s.dropWhile isWs).reverse.dropWhile isWs).reverse : Str) <+:
      s.dropWhile isWs := trimRight_prefix (s.dropWhile isWs)
  rw [h] at hpre
  obtain ⟨u, hu⟩ := hpre
  exact dropWhile_head_not (s := s) hu.symm

theorem pyStrip_idem (s : Str) : pyStrip (pyStrip s) = pyStrip s := by
  rcases h : pyStrip s with _ | ⟨c, t⟩
  · rfl
  · have hc : isWs c = false := pyStrip_head_not_ws h
    have hfront : (c :: t : Str).dropWhile isWs = c :: t :=
      dropWhile_eq_self_of_head rfl hc
    rcases hrev : (c :: t : Str).reverse with _ | ⟨d, u⟩
    · simp at hrev
    · have hd : isWs d = false := by
        -- `d` is the last character of `pyStrip s = c :: t`, hence the head of
        -- the reversed right-trimmed part of `s.dropWhile isWs`
        have h2 : (s.dropWhile isWs).reverse.dropWhile isWs = (c :: t : Str).reverse := by
          have h3 : ((s.dropWhile isWs).reverse.dropWhile isWs).reverse.reverse
              = (c :: t : Str).reverse := by rw [pyStrip] at h; rw [h]
          rwa [List.reverse_reverse] at h3
        rw [hrev] at h2
        exact dropWhile_head_not h2
      show (((c :: t : Str).dropWhile isWs).reverse.dropWhile isWs).reverse = c :: t
      rw [hfront, hrev, dropWhile_eq_self_of_head rfl hd, ← hrev, List.reverse_reverse]

theorem nws_ne_nil_of_stripped {s : Str} (hs : pyStrip s = s) (hne : s ≠ []) :
    nws s ≠ [] := by
  rw [← pyStrip_ne_nil_iff, hs]
  exact hne

theorem pyStrip_take_ne_nil {s : Str} (hs : pyStrip s = s) (hne : s ≠ []) {b : ℕ}
    (hb : 1 ≤ b) : pyStrip (s.take b) ≠ [] := by
  rcases s with _ | ⟨c, t⟩
  · exact absurd rfl hne
  · have hc : isWs c = false := pyStrip_head_not_ws hs
    rw [pyStrip_ne_nil_iff]
    rcases b with _ | b
    · omega
    · simp [List.take_succ_cons, nws, hc]

@[simp] theorem nwsJoin_nil : nwsJoin [] = [] := rfl

@[simp] theorem nwsJoin_cons (c : Str) (l : List Str) :
    nwsJoin (c :: l) = nws c ++ nwsJoin l := rfl

theorem nwsJoin_append (a b : List Str) : nwsJoin (a ++ b) = nwsJoin a ++ nwsJoin b := by
  simp [nwsJoin]

theorem nwsJoin_filter_ne_nil (l : List Str) :
    nwsJoin (l.filter (fun c => c ≠ [])) = nwsJoin l := by
  induction l with
  | nil => rfl
  | cons c cs ih =>
    by_cases h : c = []
    · subst h; simpa [List.filter_cons, nws] using ih
    · simpa [List.filter_cons, h] using ih

theorem nwsJoin_filter_strip (l : List Str) :
    nwsJoin (l.filter (fun c => pyStrip c ≠ [])) = nwsJoin l := by
  induction l with
  | nil => rfl
  | cons c cs ih =>
    by_cases h : pyStrip c = []
    · have hn : nws c = [] := (pyStrip_eq_nil_iff c).mp h
      simpa [List.filter_cons, h, hn] using ih
    · simpa [List.filter_cons, h] using ih

theorem flatten_sublist {l₁ l₂ : List Str} (h : List.Sublist l₁ l₂) :
    List.Sublist l₁.flatten l₂.flatten := by
  induction h with
  | slnil => exact List.Sublist.refl _
  | cons a _ ih =>
    simpa using List.sublist_append_of_sublist_right ih
  | cons₂ a _ ih =>
    simpa using List.Sublist.append (List.Sublist.refl a) ih

theorem nwsJoin_flatMap_sublist {l : List Str} {f : Str → List Str}
    (h : ∀ c ∈ l, List.Sublist (nwsJoin (f c)) (nws c)) :
    List.Sublist (nwsJoin (l.flatMap f)) (nwsJoin l) := by
  induction l with
  | nil => simp [nwsJoin]
  | cons c cs ih =>
    have hc := h c (by simp)
    have hcs := ih (fun x hx => h x (by simp [hx]))
    rw [List.flatMap_cons, nwsJoin_append, nwsJoin_cons]
    exact List.Sublist.append hc hcs

theorem drop_eq_getD_cons {s : Str} {a : ℕ} (h : a < s.length) :
    s.drop a = s.getD a 'x' :: s.drop (a + 1) := by
  rw [List.drop_eq_getElem_cons h, List.getD_eq_getElem s 'x' h]

theorem nws_drop_eq_of_ws {s : Str} {a b : ℕ}
    (hws : ∀ j, a ≤ j → j < b → isWs (s.getD j 'x') = true)
    (hab : a ≤ b) (hb : b ≤ s.length) : nws (s.drop a) = nws (s.drop b) := by
  induction b with
  | zero =>
    have : a = 0 := by omega
    rw [this]
  | succ n ih =>
    by_cases han : a = n + 1
    · rw [han]
    · have ha : a ≤ n := by omega
      have h1 : nws (s.drop a) = nws (s.drop n) :=
        ih (fun j hj1 hj2 => hws j hj1 (by omega)) ha (by omega)
      have hn : n < s.length := by omega
      rw [h1, drop_eq_getD_cons hn]
      have hwsn : isWs (s.getD n 'x') = true := hws n ha (by omega)
      simp only [nws, List.filter_cons, hwsn]
      rfl

/-! ## `maxSat` -/

theorem maxSat_zero (p : ℕ → Bool) : maxSat 0 p = none := rfl

theorem maxSat_succ (n : ℕ) (p : ℕ → Bool) :
    maxSat (n + 1) p = if p n then some n else maxSat n p := by
  unfold maxSat
  rw [List.range_succ, List.filter_append]
  by_cases h : p n
  · simp [h]
  · simp [h]

theorem maxSat_eq_none {n : ℕ} {p : ℕ → Bool} (h : maxSat n p = none) :
    ∀ i, i < n → p i = false := by
  induction n with
  | zero => omega
  | succ m ih =>
    rw [maxSat_succ] at h
    by_cases hp : p m
    · simp [hp] at h
    · intro i hi
      rcases Nat.lt_succ_iff_lt_or_eq.mp hi with hlt | heq
      · exact ih (by simpa [hp] using h) i hlt
      · subst heq; simpa using hp
  
theorem maxSat_eq_some {n : ℕ} {p : ℕ → Bool} {i : ℕ} (h : maxSat n p = some i) :
    p i = true ∧ i < n ∧ ∀ j, i < j → j < n → p j = false := by
  induction n with
  | zero => simp [maxSat] at h
  | succ m ih =>
    rw [maxSat_succ] at h
    by_cases hp : p m
    · simp [hp] at h
      subst h
      exact ⟨hp, by omega, fun j h1 h2 => by omega⟩
    · simp [hp] at h
      obtain ⟨h1, h2, h3⟩ := ih h
      refine ⟨h1, by omega, fun j hj1 hj2 => ?_⟩
      rcases Nat.lt_succ_iff_lt_or_eq.mp hj2 with hlt | heq
      · exact h3 j hj1 hlt
      · subst heq; simpa using hp

theorem maxSat_intro {n : ℕ} {p : ℕ → Bool} {i : ℕ} (hi : i < n) (hp : p i = true)
    (hmax : ∀ j, i < j → j < n → p j = false) : maxSat n p = some i := by
  induction n with
  | zero => omega
  | succ m ih =>
    rw [maxSat_succ]
    by_cases him : i = m
    · subst him; simp [hp]
    · have hm : p m = false := hmax m (by omega) (by omega)
      rw [hm]
      simpa using ih (by omega) (fun j h1 h2 => hmax j h1 (by omega))

/-! ## `findFrom` (Python `str.find`) -/

theorem findFromAux_some {sub : Str} :
    ∀ {rest : Str} {i j : ℕ}, findFromAux sub rest i = some j →
      i ≤ j ∧ sub.isPrefixOf (rest.drop (j - i)) = true ∧
        ∀ k, i ≤ k → k < j → sub.isPrefixOf (rest.drop (k - i)) = false := by
  intro rest
  induction rest with
  | nil =>
    intro i j h
    unfold findFromAux at h
    by_cases hp : sub.isPrefixOf ([] : Str)
    · simp [hp] at h
      subst h
      exact ⟨le_refl _, by simpa using hp, fun k h1 h2 => by omega⟩
    · simp [hp] at h
  | cons c cs ih =>
    intro i j h
    unfold findFromAux at h
    by_cases hp : sub.isPrefixOf (c :: cs)
    · simp [hp] at h
      subst h
      exact ⟨le_refl _, by simpa using hp, fun k h1 h2 => by omega⟩
    · simp [hp] at h
      obtain ⟨h1, h2, h3⟩ := ih h
      refine ⟨by omega, ?_, ?_⟩
      · have : j - i = (j - (i + 1)) + 1 := by omega
        rw [this]
        simpa using h2
      · intro k hk1 hk2
        by_cases hki : k = i
        · subst hki
          simp only [Nat.sub_self, List.drop_zero]
          exact Bool.eq_false_iff.mpr hp
        · have : k - i = (k - (i + 1)) + 1 := by omega
          rw [this]
          simpa using h3 k (by omega) hk2

theorem findFromAux_none {sub : Str} (hsub : sub ≠ []) :
    ∀ {rest : Str} {i : ℕ}, findFromAux sub rest i = none →
      ∀ k, i ≤ k → sub.isPrefixOf (rest.drop (k - i)) = false := by
  intro rest
  induction rest with
  | nil =>
    intro i h k hk
    simp only [List.drop_nil]
    rcases sub with _ | ⟨a, b⟩
    · exact absurd rfl hsub
    · rfl
  | cons c cs ih =>
    intro i h k hk
    unfold findFromAux at h
    by_cases hp : sub.isPrefixOf (c :: cs)
    · simp [hp] at h
    · simp [hp] at h
      by_cases hki : k = i
      · subst hki
        simp only [Nat.sub_self, List.drop_zero]
        exact Bool.eq_false_iff.mpr hp
      · have : k - i = (k - (i + 1)) + 1 := by omega
        rw [this]
        simpa using ih h k (by omega)

theorem findFrom_some {s sub : Str} {start j : ℕ} (h : findFrom s sub start = some j) :
    start ≤ j ∧ sub <+: s.drop j ∧
      ∀ k, start ≤ k → k < j → ¬ sub <+: s.drop k := by
  unfold findFrom at h
  obtain ⟨h1, h2, h3⟩ := findFromAux_some h
  have hdd : ∀ m, start ≤ m → (s.drop start).drop (m - start) = s.drop m := by
    intro m hm
    rw [List.drop_drop]
    congr 1
    omega
  refine ⟨h1, ?_, ?_⟩
  · rw [hdd j h1] at h2
    exact List.isPrefixOf_iff_prefix.mp h2
  · intro k hk1 hk2 hc
    have := h3 k hk1 hk2
    rw [hdd k hk1] at this
    rw [← List.isPrefixOf_iff_prefix] at hc
    rw [this] at hc
    cases hc

theorem findFrom_none {s sub : Str} {start : ℕ} (hsub : sub ≠ [])
    (h : findFrom s sub start = none) :
    ∀ k, start ≤ k → ¬ sub <+: s.drop k := by
  unfold findFrom at h
  intro k hk hc
  have := findFromAux_none hsub h k hk
  have hdd : (s.drop start).drop (k - start) = s.drop k := by
    rw [List.drop_drop]
    congr 1
    omega
  rw [hdd] at this
  rw [← List.isPrefixOf_iff_prefix] at hc
  rw [this] at hc
  cases hc

theorem prefix_drop_lt_length {s sub : Str} {i : ℕ} (hsub : sub ≠ [])
    (h : sub <+: s.drop i) : i < s.length := by
  by_contra hc
  have : s.drop i = [] := List.drop_eq_nil_of_le (by omega)
  rw [this, List.prefix_nil] at h
  exact hsub h

theorem prefix_drop_decomp {s sub : Str} {i : ℕ} (h : sub <+: s.drop i) :
    s = s.take i ++ sub ++ s.drop (i + sub.length) := by
  obtain ⟨u, hu⟩ := h
  have h2 : s.drop (i + sub.length) = u := by
    have h3 : (s.drop i).drop sub.length = u := by
      rw [← hu]
      simp
    rw [← h3, List.drop_drop]
  rw [h2, List.append_assoc, hu, List.take_append_drop]

/-! ## Characterisation of the sentence/clause scanning loops -/

theorem maxSat_none_intro {n : ℕ} {p : ℕ → Bool} (h : ∀ i, i < n → p i = false) :
    maxSat n p = none := by
  unfold maxSat
  have : (List.range n).filter p = [] := by
    rw [List.filter_eq_nil_iff]
    intro a ha
    simp [h a (List.mem_range.mp ha)]
  rw [this]
  rfl

theorem maxSat_congr {n : ℕ} {p q : ℕ → Bool} (h : ∀ i, i < n → p i = q i) :
    maxSat n p = maxSat n q := by
  unfold maxSat
  rw [List.filter_congr (fun a ha => by rw [h a (List.mem_range.mp ha)])]

/-- The per-variant scanning loop computes the rightmost admissible occurrence
of its variant, defaulting to the incoming `best`. -/
theorem scanOneAux_eq {text e : Str} (he : e ≠ []) {ml : ℕ} :
    ∀ fuel pos best, text.length + 1 - pos ≤ fuel →
      scanOneAux text e ml fuel pos best =
        match maxSat text.length
            (fun i => decide (pos ≤ i) && e.isPrefixOf (text.drop i) &&
              decide (i + e.length ≤ ml)) with
        | some i => some (i + e.length)
        | none => best := by
  intro fuel
  induction fuel with
  | zero =>
    intro pos best hfuel
    have hnone : maxSat text.length
        (fun i => decide (pos ≤ i) && e.isPrefixOf (text.drop i) &&
          decide (i + e.length ≤ ml)) = none := by
      apply maxSat_none_intro
      intro i hi
      have : ¬ pos ≤ i := by omega
      simp [this]
    rw [hnone]
    rfl
  | succ fuel ih =>
    intro pos best hfuel
    unfold scanOneAux
    by_cases hpos : text.length ≤ pos
    · have hnone : maxSat text.length
          (fun i => decide (pos ≤ i) && e.isPrefixOf (text.drop i) &&
            decide (i + e.length ≤ ml)) = none := by
        apply maxSat_none_intro
        intro i hi
        have : ¬ pos ≤ i := by omega
        simp [this]
      rw [hnone]
      simp [hpos]
    · simp only [hpos, if_false]
      rcases hf : findFrom text e pos with _ | found
      · have hnone : maxSat text.length
            (fun i => decide (pos ≤ i) && e.isPrefixOf (text.drop i) &&
              decide (i + e.length ≤ ml)) = none := by
          apply maxSat_none_intro
          intro i hi
          by_cases hpi : pos ≤ i
          · have := findFrom_none he hf i hpi
            rw [← List.isPrefixOf_iff_prefix] at this
            simp [Bool.eq_false_iff.mpr this]
          · simp [hpi]
        rw [hnone]
      · obtain ⟨hle, hpre, hmin⟩ := findFrom_some hf
        have hfoundlt : found < text.length := prefix_drop_lt_length he hpre
        by_cases hadm : found + e.length ≤ ml
        · simp only [hadm, if_true]
          rw [ih (found + 1) (some (found + e.length)) (by omega)]
          rcases hms : maxSat text.length
              (fun i => decide (found + 1 ≤ i) && e.isPrefixOf (text.drop i) &&
                decide (i + e.length ≤ ml)) with _ | i
          · -- no admissible occurrence beyond `found`: `found` itself is the max
            have hall := maxSat_eq_none hms
            have : maxSat text.length
                (fun i => decide (pos ≤ i) && e.isPrefixOf (text.drop i) &&
                  decide (i + e.length ≤ ml)) = some found := by
              apply maxSat_intro hfoundlt
              · simp [hle, List.isPrefixOf_iff_prefix, hpre, hadm]
              · intro j hj1 hj2
                have h4 := hall j hj2
                by_cases hj3 : found + 1 ≤ j
                · simp [hj3] at h4
                  simp
                  intro _
                  exact h4
                · omega
            rw [this]
          · obtain ⟨hp1, hp2, hp3⟩ := maxSat_eq_some hms
            have hi1 : found + 1 ≤ i := by
              by_contra hc
              simp [hc] at hp1
            have : maxSat text.length
                (fun i => decide (pos ≤ i) && e.isPrefixOf (text.drop i) &&
                  decide (i + e.length ≤ ml)) = some i := by
              apply maxSat_intro hp2
              · have : pos ≤ i := by omega
                simpa [this, hi1] using hp1
              · intro j hj1 hj2
                have h4 := hp3 j hj1 hj2
                have hj3 : found + 1 ≤ j := by omega
                simp [hj3] at h4
                simp
                intro _
                exact h4
            rw [this]
        · simp only [hadm, if_false]
          have hnone : maxSat text.length
              (fun i => decide (pos ≤ i) && e.isPrefixOf (text.drop i) &&
                decide (i + e.length ≤ ml)) = none := by
            apply maxSat_none_intro
            intro i hi
            by_cases hpi : pos ≤ i
            · by_cases hocc : e <+: text.drop i
              · have hif : found ≤ i := by
                  by_contra hc
                  exact hmin i hpi (by omega) hocc
                have : ¬ i + e.length ≤ ml := by omega
                simp [this]
              · rw [← List.isPrefixOf_iff_prefix] at hocc
                simp [Bool.eq_false_iff.mpr hocc]
            · simp [hpi]
          rw [hnone]

/-- One full variant scan (from position 0) in terms of `lastAdmissibleEnd`. -/
theorem scanOne_eq_lastAdmissible {text e : Str} (he : e ≠ []) (ml : ℕ) (best : Option ℕ) :
    scanOneAux text e ml (text.length + 1) 0 best =
      match lastAdmissibleEnd text e ml with
      | some v => some v
      | none => best := by
  rw [scanOneAux_eq he (text.length + 1) 0 best (by omega)]
  unfold lastAdmissibleEnd
  rw [maxSat_congr (q := fun i => e.isPrefixOf (text.drop i) && decide (i + e.length ≤ ml))
    (fun i _ => by simp)]
  rcases maxSat text.length (fun i => e.isPrefixOf (text.drop i) && decide (i + e.length ≤ ml))
    with _ | i
  · rfl
  · rfl

theorem foldl_scan_eq {text : Str} {ml : ℕ} :
    ∀ (endings : List Str), (∀ e ∈ endings, e ≠ []) → ∀ init,
      endings.foldl (fun best e => scanOneAux text e ml (text.length + 1) 0 best) init =
        match (endings.filterMap (fun e => lastAdmissibleEnd text e ml)).getLast? with
        | some v => some v
        | none => init := by
  intro endings
  induction endings with
  | nil => intro _ init; rfl
  | cons e es ih =>
    intro hne init
    rw [List.foldl_cons, ih (fun x hx => hne x (by simp [hx])),
      scanOne_eq_lastAdmissible (hne e (by simp)) ml init]
    rcases hfe : lastAdmissibleEnd text e ml with _ | v
    · simp [List.filterMap_cons, hfe]
    · simp only [List.filterMap_cons, hfe]
      rcases hrest : (es.filterMap (fun e => lastAdmissibleEnd text e ml)) with _ | ⟨w, l⟩
      · simp
      · simp only [List.getLast?_cons_cons]
        rcases hgl : (w :: l).getLast? with _ | u
        · exact absurd (List.getLast?_eq_none_iff.mp hgl) (by simp)
        · rfl

/-- The sentence/clause boundary scan equals the "last variant with an
admissible occurrence wins; within a variant, rightmost admissible occurrence"
rule. -/
theorem scanEndings_eq_lastVariantChoice {text : Str} {ml : ℕ} {endings : List Str}
    (hne : ∀ e ∈ endings, e ≠ []) :
    scanEndings text endings ml = lastVariantChoice text endings ml := by
  unfold scanEndings lastVariantChoice
  rw [foldl_scan_eq endings hne none]
  rcases (endings.filterMap (fun e => lastAdmissibleEnd text e ml)).getLast? with _ | v
  · rfl
  · rfl

/-! ## The paragraph regex: match validity and content preservation -/

theorem paraMatchAt_some {s : Str} {i e : ℕ} (h : paraMatchAt s i = some e) :
    i < e ∧ e ≤ s.length ∧ ∀ j, i ≤ j → j < e → isWs (s.getD j 'x') = true := by
  unfold paraMatchAt at h
  by_cases hn : s.getD i 'x' = '\n'
  case neg => rw [if_neg hn] at h; cases h
  rw [if_pos hn] at h
  rcases hms : maxSat (((s.drop (i + 1)).takeWhile isWs).length)
      (fun k => s.getD (i + 1 + k) 'x' == '\n') with _ | k
  · rw [hms] at h; cases h
  · rw [hms] at h
    have he : e = i + 1 + k + 1 := by
      cases h
      rfl
    obtain ⟨hpk, hklt, -⟩ := maxSat_eq_some hms
    have hilen : i < s.length := by
      by_contra hc
      rw [List.getD_eq_default _ _ (by omega)] at hn
      exact absurd hn (by decide)
    have hwslen : ((s.drop (i + 1)).takeWhile isWs).length ≤ s.length - (i + 1) := by
      calc ((s.drop (i + 1)).takeWhile isWs).length
          ≤ (s.drop (i + 1)).length := (List.takeWhile_prefix _).length_le
        _ = s.length - (i + 1) := List.length_drop ..
    have htw : (s.drop (i + 1)).takeWhile isWs =
        (s.drop (i + 1)).take (((s.drop (i + 1)).takeWhile isWs).length) :=
      List.prefix_iff_eq_take.mp (List.takeWhile_prefix _)
    refine ⟨by omega, by omega, ?_⟩
    intro j hj1 hj2
    by_cases hji : j = i
    · subst hji
      rw [hn]
      decide
    · have hm : j - (i + 1) < ((s.drop (i + 1)).takeWhile isWs).length := by omega
      have hjlen : j < s.length := by omega
      have h1 : ((s.drop (i + 1)).takeWhile isWs)[j - (i + 1)] ∈
          (s.drop (i + 1)).takeWhile isWs := List.getElem_mem ..
      have h2 : isWs (((s.drop (i + 1)).takeWhile isWs)[j - (i + 1)]) = true :=
        List.mem_takeWhile_imp h1
      -- move to `getElem?` form to relate the takeWhile element to `s[j]`
      have h3 : ((s.drop (i + 1)).takeWhile isWs)[j - (i + 1)]? = s[j]? := by
        conv_lhs => rw [htw]
        rw [List.getElem?_take_of_lt hm, List.getElem?_drop]
        congr 1
        omega
      have h4 : s[j]? = some (((s.drop (i + 1)).takeWhile isWs)[j - (i + 1)]) := by
        rw [← h3, List.getElem?_eq_getElem hm]
      rw [List.getD_eq_getElem s 'x' hjlen]
      have h5 : s[j] = ((s.drop (i + 1)).takeWhile isWs)[j - (i + 1)] := by
        have h6 := List.getElem?_eq_getElem hjlen (l := s)
        rw [h4] at h6
        exact (Option.some.injEq ..).mp h6.symm
      rw [h5]
      exact h2

theorem matchesValid_mono {s : Str} {i j : ℕ} {ms : List (ℕ × ℕ)}
    (h : MatchesValid s j ms) (hij : i ≤ j) : MatchesValid s i ms := by
  cases ms with
  | nil => trivial
  | cons m rest =>
    obtain ⟨h1, h2⟩ := h
    exact ⟨by omega, h2⟩

theorem paraMatchesAux_valid (s : Str) :
    ∀ fuel i, MatchesValid s i (paraMatchesAux s fuel i) := by
  intro fuel
  induction fuel with
  | zero => intro i; trivial
  | succ fuel ih =>
    intro i
    unfold paraMatchesAux
    by_cases hlen : s.length ≤ i
    · simp [hlen, MatchesValid]
    · simp only [hlen, if_false]
      rcases hm : paraMatchAt s i with _ | e
      · exact matchesValid_mono (ih (i + 1)) (by omega)
      · obtain ⟨h1, h2, h3⟩ := paraMatchAt_some hm
        exact ⟨le_refl i, h1, h2, h3, ih e⟩

theorem paraMatches_valid (s : Str) : MatchesValid s 0 (paraMatches s) :=
  paraMatchesAux_valid s (s.length + 1) 0

theorem segsFrom_nws {s : Str} :
    ∀ {ms : List (ℕ × ℕ)} {i : ℕ}, MatchesValid s i ms →
      nwsJoin (segsFrom s i ms) = nws (s.drop i) := by
  intro ms
  induction ms with
  | nil =>
    intro i _
    simp [segsFrom, nwsJoin]
  | cons m rest ih =>
    intro i hv
    rcases m with ⟨a, b⟩
    obtain ⟨hia, hab, hblen, hws, hv'⟩ := hv
    rw [segsFrom, nwsJoin_cons, ih hv']
    have h1 : ((s.drop i).drop (a - i)) = s.drop a := by
      rw [List.drop_drop]
      congr 1
      omega
    have h2 : nws ((s.drop i).take (a - i)) ++ nws (s.drop a) = nws (s.drop i) := by
      rw [← h1, nws_take_drop]
    rw [← h2]
    congr 1
    exact (nws_drop_eq_of_ws hws (by omega) hblen).symm

theorem reParaSplit_nws (s : Str) : nwsJoin (reParaSplit s) = nws s := by
  unfold reParaSplit
  rw [segsFrom_nws (paraMatches_valid s)]
  simp

/-! ## The sentence regex: content preservation -/

theorem sentSplit_nws :
    ∀ n (rest : Str), rest.length ≤ n →
      (∀ prev acc, nwsJoin (sentSplitAux rest prev acc) = nws acc.reverse ++ nws rest) ∧
      (nwsJoin (sentSplitSkip rest) = nws rest) := by
  intro n
  induction n with
  | zero =>
    intro rest hlen
    have : rest = [] := List.eq_nil_of_length_eq_zero (by omega)
    subst this
    constructor
    · intro prev acc
      simp [sentSplitAux, nwsJoin, nws]
    · simp [sentSplitSkip, nwsJoin, nws]
  | succ n ih =>
    intro rest hlen
    rcases rest with _ | ⟨c, cs⟩
    · constructor
      · intro prev acc
        simp [sentSplitAux, nwsJoin, nws]
      · simp [sentSplitSkip, nwsJoin, nws]
    · have hcs := ih cs (by simp only [List.length_cons] at hlen; omega)
      constructor
      · intro prev acc
        rw [sentSplitAux]
        by_cases hc : (isWs c && (prev == '.' || prev == '!' || prev == '?')) = true
        · rw [if_pos hc]
          have hwsc : isWs c = true := by
            rcases Bool.and_eq_true_iff.mp hc with ⟨h1, _⟩
            exact h1
          rw [nwsJoin_cons, hcs.2]
          have : nws (c :: cs) = nws cs := by simp [nws, hwsc]
          rw [this]
        · rw [if_neg hc]
          rw [hcs.1 c (c :: acc)]
          have h1 : nws ((c :: acc).reverse) = nws acc.reverse ++ nws [c] := by
            rw [List.reverse_cons, nws_append]
          have h2 : nws (c :: cs) = nws [c] ++ nws cs := by
            by_cases hw : isWs c <;> simp [nws, List.filter_cons, hw]
          rw [h1, h2, List.append_assoc]
      · rw [sentSplitSkip]
        by_cases hc : isWs c = true
        · rw [if_pos hc, hcs.2]
          simp [nws, hc]
        · rw [if_neg hc, hcs.1 c [c]]
          have h2 : nws (c :: cs) = nws [c] ++ nws cs := by
            by_cases hw : isWs c <;> simp [nws, List.filter_cons, hw]
          rw [h2]
          rfl

theorem reSentenceSplit_nws (s : Str) : nwsJoin (reSentenceSplit s) = nws s := by
  rcases s with _ | ⟨c, cs⟩
  · simp [reSentenceSplit, nwsJoin, nws]
  · rw [reSentenceSplit, (sentSplit_nws cs.length cs (le_refl _)).1 c [c]]
    have h2 : nws (c :: cs) = nws [c] ++ nws cs := by
      by_cases hw : isWs c <;> simp [nws, List.filter_cons, hw]
    rw [h2]
    rfl

/-! ## The paragraph-tier loop picks the rightmost admissible match end -/

theorem matchesValid_ends {s : Str} :
    ∀ {ms : List (ℕ × ℕ)} {i : ℕ}, MatchesValid s i ms → ∀ m ∈ ms, i ≤ m.1 ∧ m.1 < m.2 := by
  intro ms
  induction ms with
  | nil => intro i _ m hm; cases hm
  | cons a rest ih =>
    intro i hv m hm
    rcases a with ⟨a1, a2⟩
    obtain ⟨h1, h2, h3, _, hv'⟩ := hv
    rcases List.mem_cons.mp hm with heq | hmem
    · subst heq; exact ⟨h1, h2⟩
    · have := ih hv' m hmem
      exact ⟨by omega, this.2⟩

theorem paraBestLoop_eq {s : Str} {ml : ℕ} :
    ∀ {ms : List (ℕ × ℕ)} {i : ℕ}, MatchesValid s i ms → ∀ best,
      paraBestLoop ml ms best =
        match ((ms.map Prod.snd).filter (fun b => decide (b ≤ ml))).getLast? with
        | some v => some v
        | none => best := by
  intro ms
  induction ms with
  | nil => intro i _ best; rfl
  | cons m rest ih =>
    intro i hv best
    rcases m with ⟨a, b⟩
    obtain ⟨h1, h2, h3, h4, hv'⟩ := hv
    rw [paraBestLoop]
    by_cases hbl : b ≤ ml
    · simp only [hbl, if_true]
      rw [ih hv' (some b)]
      rw [List.map_cons, List.filter_cons, if_pos (by simpa using hbl)]
      rcases hr2 : (rest.map Prod.snd).filter (fun x => decide (x ≤ ml)) with _ | ⟨w, l⟩
      · rfl
      · simp only [List.getLast?_cons_cons]
        rcases hrest : (w :: l).getLast? with _ | v
        · exact absurd (List.getLast?_eq_none_iff.mp hrest) (by simp)
        · rfl
    · simp only [hbl, if_false]
      -- every later end exceeds `b > ml`, so the filtered list is empty
      have hall : (rest.map Prod.snd).filter (fun x => decide (x ≤ ml)) = [] := by
        rw [List.filter_eq_nil_iff]
        intro x hx
        obtain ⟨mm, hmm, hxe⟩ := List.mem_map.mp hx
        have := matchesValid_ends hv' mm hmm
        simp only [decide_eq_true_eq]
        omega
      simp only [List.map_cons, List.filter_cons]
      have : ¬ (decide (b ≤ ml) = true) := by simpa using hbl
      simp only [Bool.not_eq_true] at this
      rw [this, hall]
      rfl

/-! ## `rfind` and the shape of the boundary finder -/

theorem rfindSpaceBefore_some {s : Str} {stop j : ℕ} (h : rfindSpaceBefore s stop = some j) :
    j < stop ∧ j < s.length ∧ s.getD j 'x' = ' ' := by
  obtain ⟨h1, h2, _⟩ := maxSat_eq_some h
  refine ⟨by omega, by omega, ?_⟩
  simpa using h1

/-- Every successful boundary tier, and the word fallback, returns
`(strip (take b), strip (drop b))` for some admissible `b ≤ max_length`. -/
theorem scanOneAux_le {text e : Str} {ml : ℕ} :
    ∀ fuel pos best, (∀ v, best = some v → v ≤ ml) →
      ∀ b, scanOneAux text e ml fuel pos best = some b → b ≤ ml := by
  intro fuel
  induction fuel with
  | zero => intro pos best hb b hs; exact hb b hs
  | succ fuel ih =>
    intro pos best hb b hs
    rw [scanOneAux] at hs
    by_cases hp : text.length ≤ pos
    · rw [if_pos hp] at hs; exact hb b hs
    · rw [if_neg hp] at hs
      rcases hf : findFrom text e pos with _ | found
      · rw [hf] at hs; exact hb b hs
      · rw [hf] at hs
        dsimp only at hs
        by_cases hadm : found + e.length ≤ ml
        · rw [if_pos hadm] at hs
          exact ih _ _ (fun v hv => by injection hv with hv; omega) b hs
        · rw [if_neg hadm] at hs; exact hb b hs

theorem scanEndings_le {text : Str} {ml : ℕ} :
    ∀ (endings : List Str) (best : Option ℕ), (∀ v, best = some v → v ≤ ml) →
      ∀ b, endings.foldl (fun best e => scanOneAux text e ml (text.length + 1) 0 best) best
        = some b → b ≤ ml := by
  intro endings
  induction endings with
  | nil => intro best hb b hs; exact hb b hs
  | cons e es ih =>
    intro best hb b hs
    rw [List.foldl_cons] at hs
    exact ih _ (fun v hv => scanOneAux_le _ _ _ hb v hv) b hs

theorem paraBestLoop_le {ml : ℕ} :
    ∀ (ms : List (ℕ × ℕ)) (best : Option ℕ), (∀ v, best = some v → v ≤ ml) →
      ∀ b, paraBestLoop ml ms best = some b → b ≤ ml := by
  intro ms
  induction ms with
  | nil => intro best hb b hs; exact hb b hs
  | cons m rest ih =>
    intro best hb b hs
    rw [paraBestLoop] at hs
    by_cases hm2 : m.2 ≤ ml
    · rw [if_pos hm2] at hs
      exact ih _ (fun v hv => by injection hv with hv; omega) b hs
    · rw [if_neg hm2] at hs; exact hb b hs

/-- Every successful boundary tier, and the word fallback, returns
`(strip (take b), strip (drop b))` for some admissible `b ≤ max_length`; on
stripped input with a positive limit the split position is positive. -/
theorem finder_shape {text : Str} {ml : ℕ} (h : ml < text.length) :
    ∃ b, b ≤ ml ∧ (pyStrip text = text → 1 ≤ ml → 1 ≤ b) ∧
      _find_best_split_point text ml 0 = (pyStrip (text.take b), pyStrip (text.drop b)) := by
  unfold _find_best_split_point
  rw [if_neg (by omega)]
  rcases hp : _try_split_at_paragraphs text ml 0 with _ | rp
  case some =>
    unfold _try_split_at_paragraphs at hp
    by_cases hms : paraMatches text = []
    · rw [if_pos hms] at hp; cases hp
    · rw [if_neg hms] at hp
      rcases hbl : paraBestLoop ml (paraMatches text) none with _ | b
      · rw [hbl] at hp; cases hp
      · rw [hbl] at hp
        dsimp only at hp
        by_cases hcond : 0 < b ∧ ml < 2 * b
        · rw [if_pos hcond] at hp
          -- the loop only stores ends `≤ ml`
          have hble : b ≤ ml := paraBestLoop_le _ none (fun v hv => by cases hv) b hbl
          exact ⟨b, hble, fun _ _ => hcond.1, by injection hp with hp; rw [← hp]; simp⟩
        · rw [if_neg hcond] at hp; cases hp
  rcases hs : _try_split_at_sentences text ml 0 with _ | rs
  case some =>
    unfold _try_split_at_sentences at hs
    rcases hse : scanEndings text sentenceEndings ml with _ | b
    · rw [hse] at hs; cases hs
    · rw [hse] at hs
      dsimp only at hs
      by_cases hcond : 0 < b ∧ 2 * ml < 5 * b
      · rw [if_pos hcond] at hs
        have hble : b ≤ ml := scanEndings_le sentenceEndings none (fun v hv => by cases hv) b hse
        exact ⟨b, hble, fun _ _ => hcond.1, by injection hs with hs; rw [← hs]; simp⟩
      · rw [if_neg hcond] at hs; cases hs
  rcases hc : _try_split_at_clauses text ml 0 with _ | rc
  case some =>
    unfold _try_split_at_clauses at hc
    rcases hce : scanEndings text clauseDelimiters ml with _ | b
    · rw [hce] at hc; cases hc
    · rw [hce] at hc
      dsimp only at hc
      by_cases hcond : 0 < b ∧ 3 * ml < 10 * b
      · rw [if_pos hcond] at hc
        have hble : b ≤ ml := scanEndings_le clauseDelimiters none (fun v hv => by cases hv) b hce
        exact ⟨b, hble, fun _ _ => hcond.1, by injection hc with hc; rw [← hc]; simp⟩
      · rw [if_neg hcond] at hc; cases hc
  case none =>
    unfold _split_at_words
    rw [if_neg (by omega)]
    rcases hr : rfindSpaceBefore text ml with _ | j
    · exact ⟨ml, le_refl _, fun _ h1 => h1, by simp⟩
    · obtain ⟨hj1, hj2, hsp⟩ := rfindSpaceBefore_some hr
      refine ⟨j, by omega, ?_, by simp⟩
      intro hst _
      by_contra hj0
      have hj0' : j = 0 := by omega
      subst hj0'
      rcases htext : text with _ | ⟨c, t⟩
      · subst htext
        simp at h
      · rw [htext] at hsp
        have hc0 : c = ' ' := by simpa using hsp
        rw [htext] at hst
        have := pyStrip_head_not_ws hst
        rw [hc0] at this
        exact absurd this (by decide)

/-! ## `_chunk_hierarchical`: bound, content preservation, trimmed chunks -/

theorem pyStrip_take_length_le (s : Str) (n : ℕ) : (pyStrip (s.take n)).length ≤ n :=
  le_trans (pyStrip_length_le _) (by simp [List.length_take])

theorem chunkHierLoop_bound {ml : ℕ} :
    ∀ fuel rem c, c ∈ chunkHierLoop ml fuel rem → c.length ≤ ml := by
  intro fuel
  induction fuel with
  | zero => intro rem c hc; cases hc
  | succ fuel ih =>
    intro rem c hc
    rw [chunkHierLoop] at hc
    by_cases h0 : rem = []
    · rw [if_pos h0] at hc; cases hc
    · rw [if_neg h0] at hc
      by_cases h1 : rem.length ≤ ml
      · rw [if_pos h1] at hc
        rcases List.mem_singleton.mp hc with h
        subst h
        exact h1
      · rw [if_neg h1] at hc
        dsimp only at hc
        obtain ⟨b, hble, -, hshape⟩ := @finder_shape rem ml (by omega)
        rw [hshape] at hc
        by_cases hr1 : pyStrip (rem.take b) = []
        · rw [if_pos (by simpa using hr1)] at hc
          rcases List.mem_cons.mp hc with h | h
          · subst h; exact pyStrip_take_length_le ..
          · exact ih _ c h
        · rw [if_neg (by simpa using hr1)] at hc
          rcases List.mem_cons.mp hc with h | h
          · subst h; exact le_trans (pyStrip_take_length_le ..) hble
          · exact ih _ c h

theorem chunkHierLoop_nws {ml : ℕ} (hml : 1 ≤ ml) :
    ∀ fuel rem, pyStrip rem = rem → rem.length ≤ fuel →
      nwsJoin (chunkHierLoop ml fuel rem) = nws rem := by
  intro fuel
  induction fuel with
  | zero =>
    intro rem hst hlen
    have : rem = [] := List.eq_nil_of_length_eq_zero (by omega)
    subst this
    rfl
  | succ fuel ih =>
    intro rem hst hlen
    rw [chunkHierLoop]
    by_cases h0 : rem = []
    · rw [if_pos h0]; subst h0; rfl
    · rw [if_neg h0]
      by_cases h1 : rem.length ≤ ml
      · rw [if_pos h1]
        simp [nwsJoin]
      · rw [if_neg h1]
        dsimp only
        obtain ⟨b, hble, hpos, hshape⟩ := @finder_shape rem ml (by omega)
        have hb1 : 1 ≤ b := hpos hst hml
        rw [hshape]
        have hr1 : pyStrip (rem.take b) ≠ [] := pyStrip_take_ne_nil hst h0 hb1
        rw [if_neg (by simpa using hr1)]
        rw [nwsJoin_cons]
        have hrec : nwsJoin (chunkHierLoop ml fuel (pyStrip (rem.drop b))) =
            nws (pyStrip (rem.drop b)) := by
          apply ih _ (pyStrip_idem _)
          calc (pyStrip (rem.drop b)).length ≤ (rem.drop b).length := pyStrip_length_le _
            _ = rem.length - b := List.length_drop ..
            _ ≤ fuel := by omega
        rw [hrec, nws_pyStrip, nws_pyStrip, nws_take_drop]

theorem chunkHierLoop_stripped {ml : ℕ} :
    ∀ fuel rem, pyStrip rem = rem → ∀ c ∈ chunkHierLoop ml fuel rem, pyStrip c = c := by
  intro fuel
  induction fuel with
  | zero => intro rem _ c hc; cases hc
  | succ fuel ih =>
    intro rem hst c hc
    rw [chunkHierLoop] at hc
    by_cases h0 : rem = []
    · rw [if_pos h0] at hc; cases hc
    · rw [if_neg h0] at hc
      by_cases h1 : rem.length ≤ ml
      · rw [if_pos h1] at hc
        rcases List.mem_singleton.mp hc with h
        subst h
        exact hst
      · rw [if_neg h1] at hc
        dsimp only at hc
        obtain ⟨b, -, -, hshape⟩ := @finder_shape rem ml (by omega)
        rw [hshape] at hc
        by_cases hr1 : pyStrip (rem.take b) = []
        · rw [if_pos (by simpa using hr1)] at hc
          rcases List.mem_cons.mp hc with h | h
          · subst h; exact pyStrip_idem ..
          · exact ih _ (pyStrip_idem _) c h
        · rw [if_neg (by simpa using hr1)] at hc
          rcases List.mem_cons.mp hc with h | h
          · subst h; exact pyStrip_idem ..
          · exact ih _ (pyStrip_idem _) c h

theorem chunk_hierarchical_bound {text : Str} {ml : ℕ} :
    ∀ c ∈ _chunk_hierarchical text ml, c.length ≤ ml := by
  intro c hc
  exact chunkHierLoop_bound _ _ c (List.mem_of_mem_filter hc)

theorem chunk_hierarchical_nws {text : Str} {ml : ℕ} (hml : 1 ≤ ml) :
    nwsJoin (_chunk_hierarchical text ml) = nws text := by
  unfold _chunk_hierarchical
  rw [nwsJoin_filter_ne_nil,
    chunkHierLoop_nws hml _ (pyStrip text) (pyStrip_idem text) (by omega), nws_pyStrip]

theorem chunk_hierarchical_trimmed {text : Str} {ml : ℕ} :
    ∀ c ∈ _chunk_hierarchical text ml, pyStrip c ≠ [] := by
  intro c hc
  have h1 : c ≠ [] := by
    have := List.of_mem_filter hc
    simpa using this
  have h2 : pyStrip c = c :=
    chunkHierLoop_stripped _ (pyStrip text) (pyStrip_idem text) c (List.mem_of_mem_filter hc)
  rw [h2]
  exact h1

/-! ## `chunksOf`, `" ".join`, and `str.split()` -/

theorem nws_flatten (l : List Str) : nws l.flatten = nwsJoin l := by
  induction l with
  | nil => rfl
  | cons a t ih => rw [List.flatten_cons, nws_append, nwsJoin_cons, ih]

theorem chunksOfAux_nil {size : ℕ} : ∀ fuel, chunksOfAux size fuel [] = [] := by
  intro fuel
  rcases fuel with _ | fuel
  · rfl
  · rw [chunksOfAux]
    simp

theorem chunksOfAux_length_le {size : ℕ} :
    ∀ fuel s c, c ∈ chunksOfAux size fuel s → c.length ≤ size := by
  intro fuel
  induction fuel with
  | zero => intro s c hc; cases hc
  | succ fuel ih =>
    intro s c hc
    rw [chunksOfAux] at hc
    by_cases h0 : s = []
    · rw [if_pos h0] at hc; cases hc
    · rw [if_neg h0] at hc
      rcases List.mem_cons.mp hc with h | h
      · subst h; simp [List.length_take]
      · exact ih _ c h

theorem chunksOf_length_le {size : ℕ} {s c : Str} (hc : c ∈ chunksOf size s) :
    c.length ≤ size := chunksOfAux_length_le _ _ c hc

theorem chunksOfAux_flatten {size : ℕ} (hsize : 1 ≤ size) :
    ∀ fuel s, s.length ≤ fuel → (chunksOfAux size fuel s).flatten = s := by
  intro fuel
  induction fuel with
  | zero =>
    intro s hlen
    have : s = [] := List.eq_nil_of_length_eq_zero (by omega)
    subst this
    rfl
  | succ fuel ih =>
    intro s hlen
    rw [chunksOfAux]
    by_cases h0 : s = []
    · rw [if_pos h0, h0]; rfl
    · rw [if_neg h0, List.flatten_cons, ih (s.drop size) (by
        rw [List.length_drop]
        have : 1 ≤ s.length := List.length_pos.mpr h0
        omega)]
      exact List.take_append_drop ..

theorem chunksOf_flatten {size : ℕ} (hsize : 1 ≤ size) (s : Str) :
    (chunksOf size s).flatten = s :=
  chunksOfAux_flatten hsize s.length s (le_refl _)

theorem chunksOf_nwsJoin {size : ℕ} (hsize : 1 ≤ size) (s : Str) :
    nwsJoin (chunksOf size s) = nws s := by
  rw [← nws_flatten, chunksOf_flatten hsize]

theorem chunksOfAux_eq_nil {size : ℕ} :
    ∀ {fuel s}, chunksOfAux size fuel s = [] → s = [] ∨ fuel = 0 := by
  intro fuel s h
  rcases fuel with _ | fuel
  · right; rfl
  · rw [chunksOfAux] at h
    by_cases h0 : s = []
    · left; exact h0
    · rw [if_neg h0] at h
      cases h

theorem chunksOfAux_dropLast_length {size : ℕ} (hsize : 1 ≤ size) :
    ∀ fuel s, s.length ≤ fuel →
      ∀ c ∈ (chunksOfAux size fuel s).dropLast, c.length = size := by
  intro fuel
  induction fuel with
  | zero => intro s _ c hc; cases hc
  | succ fuel ih =>
    intro s hlen c hc
    rw [chunksOfAux] at hc
    by_cases h0 : s = []
    · rw [if_pos h0] at hc; cases hc
    · rw [if_neg h0] at hc
      rcases hrest : chunksOfAux size fuel (s.drop size) with _ | ⟨r, rs⟩
      · rw [hrest] at hc
        cases hc
      · rw [hrest, List.dropLast_cons_of_ne_nil (by simp)] at hc
        rcases List.mem_cons.mp hc with h | h
        · -- the head window is full: the remainder is non-empty
          subst h
          have hne : s.drop size ≠ [] := by
            intro hnil
            rw [hnil, chunksOfAux_nil] at hrest
            cases hrest
          have hlt : size < s.length := by
            by_contra hcon
            exact hne (List.drop_eq_nil_of_le (by omega))
          simp [List.length_take]
          omega
        · rw [← hrest] at h
          exact ih _ (by
            rw [List.length_drop]
            have : 1 ≤ s.length := List.length_pos.mpr h0
            omega) c h

theorem nws_intercalate_space (l : List Str) :
    nws (List.intercalate [' '] l) = nwsJoin l := by
  induction l with
  | nil => rfl
  | cons a t ih =>
    rcases t with _ | ⟨b, t2⟩
    · simp [List.intercalate, nwsJoin]
    · have step : List.intercalate [' '] (a :: b :: t2) =
          a ++ [' '] ++ List.intercalate [' '] (b :: t2) := by
        simp [List.intercalate, List.intersperse]
      rw [step, nws_append, nws_append, ih, nwsJoin_cons]
      have : nws [' '] = [] := by decide
      rw [this]
      simp

theorem pySplitAux_flatten : ∀ (s : Str) (acc : Str),
    (pySplitAux s acc).flatten = acc.reverse ++ nws s := by
  intro s
  induction s with
  | nil =>
    intro acc
    by_cases h : acc = []
    · simp [pySplitAux, h, nws]
    · simp [pySplitAux, h, nws]
  | cons c cs ih =>
    intro acc
    rw [pySplitAux]
    by_cases hw : isWs c
    · rw [if_pos hw]
      have hnws : nws (c :: cs) = nws cs := by simp [nws, hw]
      by_cases h : acc = []
      · rw [if_pos h, ih []]
        simp [h, hnws]
      · rw [if_neg h, List.flatten_cons, ih []]
        simp [hnws]
    · rw [if_neg hw]
      rw [ih (c :: acc)]
      have hnws : nws (c :: cs) = c :: nws cs := by
        simp [nws, List.filter_cons, hw]
      rw [hnws]
      simp

theorem pySplitAux_wsfree : ∀ (s : Str) (acc : Str),
    (∀ ch ∈ acc, isWs ch = false) → ∀ w ∈ pySplitAux s acc, nws w = w := by
  intro s
  induction s with
  | nil =>
    intro acc hacc w hw
    unfold pySplitAux at hw
    by_cases h : acc = []
    · rw [if_pos h] at hw; cases hw
    · rw [if_neg h] at hw
      rcases List.mem_singleton.mp hw with h2
      subst h2
      rw [nws, List.filter_eq_self]
      intro a ha
      simp [hacc a (by simpa using ha)]
  | cons c cs ih =>
    intro acc hacc w hw
    rw [pySplitAux] at hw
    by_cases hws : isWs c
    · rw [if_pos hws] at hw
      by_cases h : acc = []
      · rw [if_pos h] at hw
        exact ih [] (by intro ch hch; cases hch) w hw
      · rw [if_neg h] at hw
        rcases List.mem_cons.mp hw with h2 | h2
        · subst h2
          rw [nws, List.filter_eq_self]
          intro a ha
          simp [hacc a (by simpa using ha)]
        · exact ih [] (by intro ch hch; cases hch) w h2
    · rw [if_neg hws] at hw
      refine ih (c :: acc) ?_ w hw
      intro ch hch
      rcases List.mem_cons.mp hch with h2 | h2
      · subst h2; simpa using hws
      · exact hacc ch h2

theorem nwsJoin_eq_flatten_of_wsfree {l : List Str} (h : ∀ w ∈ l, nws w = w) :
    nwsJoin l = l.flatten := by
  induction l with
  | nil => rfl
  | cons a t ih =>
    rw [nwsJoin_cons, List.flatten_cons, h a (by simp), ih (fun w hw => h w (by simp [hw]))]

theorem pySplit_wsfree (s : Str) : ∀ w ∈ pySplit s, nws w = w :=
  pySplitAux_wsfree s [] (by intro ch hch; cases hch)

theorem pySplit_nwsJoin (s : Str) : nwsJoin (pySplit s) = nws s := by
  rw [nwsJoin_eq_flatten_of_wsfree (pySplit_wsfree s), pySplit, pySplitAux_flatten]
  simp

/-! ## `_chunk_by_paragraphs` and `_chunk_by_words` -/

theorem nwsJoin_filterMap_strip (l : List Str) :
    nwsJoin (l.filterMap (fun seg => if pyStrip seg = [] then none else some (pyStrip seg))) =
      nwsJoin l := by
  induction l with
  | nil => rfl
  | cons a t ih =>
    rw [List.filterMap_cons]
    by_cases h : pyStrip a = []
    · rw [if_pos h]
      have : nws a = [] := (pyStrip_eq_nil_iff a).mp h
      rw [nwsJoin_cons, this, ih]
      rfl
    · rw [if_neg h, nwsJoin_cons, nwsJoin_cons, nws_pyStrip, ih]

theorem chunkByParagraphsLoop_bound {ml : ℕ} :
    ∀ (ps : List Str) (cur : Option Str) c,
      c ∈ chunkByParagraphsLoop ml ps cur → c.length ≤ ml := by
  intro ps
  induction ps with
  | nil =>
    intro cur c hc
    rcases cur with _ | cur
    · cases hc
    · rw [chunkByParagraphsLoop] at hc
      by_cases h : cur = []
      · rw [if_pos h] at hc; cases hc
      · rw [if_neg h] at hc
        exact chunk_hierarchical_bound c hc
  | cons p ps ih =>
    intro cur c hc
    rcases cur with _ | cur
    · exact ih (some p) c hc
    · rw [chunkByParagraphsLoop] at hc
      by_cases h : (cur ++ ['\n', '\n'] ++ p).length ≤ ml
      · rw [if_pos h] at hc
        exact ih _ c hc
      · rw [if_neg h] at hc
        rcases List.mem_append.mp hc with h2 | h2
        · exact chunk_hierarchical_bound c h2
        · exact ih _ c h2

theorem chunkByParagraphsLoop_nws {ml : ℕ} (hml : 1 ≤ ml) :
    ∀ (ps : List Str) (cur : Option Str),
      nwsJoin (chunkByParagraphsLoop ml ps cur) =
        (match cur with | none => [] | some c => nws c) ++ nwsJoin ps := by
  intro ps
  induction ps with
  | nil =>
    intro cur
    rcases cur with _ | cur
    · rfl
    · rw [chunkByParagraphsLoop]
      by_cases h : cur = []
      · rw [if_pos h, h]
        simp [nws]
      · rw [if_neg h]
        rw [chunk_hierarchical_nws hml]
        simp
  | cons p ps ih =>
    intro cur
    rcases cur with _ | cur
    · rw [chunkByParagraphsLoop, ih (some p)]
      rfl
    · rw [chunkByParagraphsLoop]
      by_cases h : (cur ++ ['\n', '\n'] ++ p).length ≤ ml
      · rw [if_pos h, ih _]
        dsimp only
        have hcand : nws (cur ++ ['\n', '\n'] ++ p) = nws cur ++ nws p := by
          rw [nws_append, nws_append]
          have h2 : nws ['\n', '\n'] = [] := by decide
          rw [h2]
          simp
        rw [hcand]
        simp [nwsJoin_cons, List.append_assoc]
      · rw [if_neg h, nwsJoin_append, chunk_hierarchical_nws hml, ih _]
        simp [nwsJoin_cons, List.append_assoc]

theorem chunkByParagraphsLoop_trimmed {ml : ℕ} :
    ∀ (ps : List Str) (cur : Option Str) c,
      c ∈ chunkByParagraphsLoop ml ps cur → pyStrip c ≠ [] := by
  intro ps
  induction ps with
  | nil =>
    intro cur c hc
    rcases cur with _ | cur
    · cases hc
    · rw [chunkByParagraphsLoop] at hc
      by_cases h : cur = []
      · rw [if_pos h] at hc; cases hc
      · rw [if_neg h] at hc
        exact chunk_hierarchical_trimmed c hc
  | cons p ps ih =>
    intro cur c hc
    rcases cur with _ | cur
    · exact ih (some p) c hc
    · rw [chunkByParagraphsLoop] at hc
      by_cases h : (cur ++ ['\n', '\n'] ++ p).length ≤ ml
      · rw [if_pos h] at hc
        exact ih _ c hc
      · rw [if_neg h] at hc
        rcases List.mem_append.mp hc with h2 | h2
        · exact chunk_hierarchical_trimmed c h2
        · exact ih _ c h2

theorem chunk_by_paragraphs_bound {text : Str} {ml : ℕ} :
    ∀ c ∈ _chunk_by_paragraphs text ml, c.length ≤ ml := by
  intro c hc
  unfold _chunk_by_paragraphs at hc
  by_cases h : (reParaSplit text).filterMap
      (fun seg => if pyStrip seg = [] then none else some (pyStrip seg)) = []
  · rw [if_pos h] at hc
    exact chunk_hierarchical_bound c hc
  · rw [if_neg h] at hc
    exact chunkByParagraphsLoop_bound _ _ c hc

theorem chunk_by_paragraphs_nws {text : Str} {ml : ℕ} (hml : 1 ≤ ml) :
    nwsJoin (_chunk_by_paragraphs text ml) = nws text := by
  unfold _chunk_by_paragraphs
  by_cases h : (reParaSplit text).filterMap
      (fun seg => if pyStrip seg = [] then none else some (pyStrip seg)) = []
  · rw [if_pos h]
    exact chunk_hierarchical_nws hml
  · rw [if_neg h, chunkByParagraphsLoop_nws hml _ none, nwsJoin_filterMap_strip,
      reParaSplit_nws]
    rfl

theorem chunk_by_paragraphs_trimmed {text : Str} {ml : ℕ} :
    ∀ c ∈ _chunk_by_paragraphs text ml, pyStrip c ≠ [] := by
  intro c hc
  unfold _chunk_by_paragraphs at hc
  by_cases h : (reParaSplit text).filterMap
      (fun seg => if pyStrip seg = [] then none else some (pyStrip seg)) = []
  · rw [if_pos h] at hc
    exact chunk_hierarchical_trimmed c hc
  · rw [if_neg h] at hc
    exact chunkByParagraphsLoop_trimmed _ _ c hc

theorem nwsJoin_flatMap_eq {l : List Str} {f : Str → List Str}
    (h : ∀ c ∈ l, nwsJoin (f c) = nws c) :
    nwsJoin (l.flatMap f) = nwsJoin l := by
  induction l with
  | nil => rfl
  | cons a t ih =>
    rw [List.flatMap_cons, nwsJoin_append, nwsJoin_cons, h a (by simp),
      ih (fun x hx => h x (by simp [hx]))]

theorem chunkByWordsLoop_nws {ml : ℕ} :
    ∀ (ws : List Str) (cw : List Str) (n : ℕ),
      nwsJoin (chunkByWordsLoop ml ws cw n) = nwsJoin cw ++ nwsJoin ws := by
  intro ws
  induction ws with
  | nil =>
    intro cw n
    rw [chunkByWordsLoop]
    by_cases h0 : cw = []
    · rw [if_pos h0, h0]
      rfl
    · rw [if_neg h0]
      by_cases h1 : pyStrip (List.intercalate [' '] cw) = []
      · rw [if_pos h1]
        have : nws (List.intercalate [' '] cw) = [] := by
          rw [← nws_pyStrip, h1]
          rfl
        rw [nws_intercalate_space] at this
        rw [this]
        rfl
      · rw [if_neg h1]
        simp [nwsJoin_cons, nws_pyStrip, nws_intercalate_space]
  | cons w ws ih =>
    intro cw n
    rw [chunkByWordsLoop]
    by_cases hcond : cw ≠ [] ∧ ml < n + (if cw = [] then w.length else w.length + 1)
    · rw [if_pos hcond]
      rw [nwsJoin_append, ih [w] w.length]
      by_cases h1 : pyStrip (List.intercalate [' '] cw) = []
      · rw [if_pos h1]
        have : nws (List.intercalate [' '] cw) = [] := by
          rw [← nws_pyStrip, h1]
          rfl
        rw [nws_intercalate_space] at this
        rw [this]
        simp [nwsJoin_cons]
      · rw [if_neg h1]
        simp [nwsJoin_cons, nws_pyStrip, nws_intercalate_space]
    · rw [if_neg hcond, ih _ _, nwsJoin_append]
      simp [nwsJoin_cons]

theorem chunkByWordsLoop_trimmed {ml : ℕ} :
    ∀ (ws : List Str) (cw : List Str) (n : ℕ) c,
      c ∈ chunkByWordsLoop ml ws cw n → pyStrip c ≠ [] := by
  intro ws
  induction ws with
  | nil =>
    intro cw n c hc
    rw [chunkByWordsLoop] at hc
    by_cases h0 : cw = []
    · rw [if_pos h0] at hc; cases hc
    · rw [if_neg h0] at hc
      by_cases h1 : pyStrip (List.intercalate [' '] cw) = []
      · rw [if_pos h1] at hc; cases hc
      · rw [if_neg h1] at hc
        rcases List.mem_singleton.mp hc with h
        subst h
        rw [pyStrip_idem]
        exact h1
  | cons w ws ih =>
    intro cw n c hc
    rw [chunkByWordsLoop] at hc
    by_cases hcond : cw ≠ [] ∧ ml < n + (if cw = [] then w.length else w.length + 1)
    · rw [if_pos hcond] at hc
      rcases List.mem_append.mp hc with h2 | h2
      · by_cases h1 : pyStrip (List.intercalate [' '] cw) = []
        · rw [if_pos h1] at h2; cases h2
        · rw [if_neg h1] at h2
          rcases List.mem_singleton.mp h2 with h
          subst h
          rw [pyStrip_idem]
          exact h1
      · exact ih _ _ c h2
    · rw [if_neg hcond] at hc
      exact ih _ _ c hc

theorem chunk_by_words_bound {text : Str} {ml : ℕ} :
    ∀ c ∈ _chunk_by_words text ml, c.length ≤ ml := by
  intro c hc
  unfold _chunk_by_words at hc
  by_cases h0 : pySplit text = []
  · rw [if_pos h0] at hc; cases hc
  · rw [if_neg h0] at hc
    obtain ⟨a, ha, hca⟩ := List.mem_flatMap.mp hc
    by_cases h1 : ml < a.length
    · rw [if_pos h1] at hca
      exact chunk_hierarchical_bound c hca
    · rw [if_neg h1] at hca
      rcases List.mem_singleton.mp hca with h
      subst h
      omega

theorem chunk_by_words_nws {text : Str} {ml : ℕ} (hml : 1 ≤ ml) :
    nwsJoin (_chunk_by_words text ml) = nws text := by
  unfold _chunk_by_words
  by_cases h0 : pySplit text = []
  · rw [if_pos h0]
    have := pySplit_nwsJoin text
    rw [h0] at this
    exact this
  · rw [if_neg h0]
    have hflat : ∀ a ∈ chunkByWordsLoop ml (pySplit text) [] 0,
        nwsJoin (if ml < a.length then _chunk_hierarchical a ml else [a]) = nws a := by
      intro a _
      by_cases h1 : ml < a.length
      · rw [if_pos h1]
        exact chunk_hierarchical_nws hml
      · rw [if_neg h1]
        simp [nwsJoin_cons]
    rw [nwsJoin_flatMap_eq hflat, chunkByWordsLoop_nws, pySplit_nwsJoin]
    rfl

theorem chunk_by_words_trimmed {text : Str} {ml : ℕ} :
    ∀ c ∈ _chunk_by_words text ml, pyStrip c ≠ [] := by
  intro c hc
  unfold _chunk_by_words at hc
  by_cases h0 : pySplit text = []
  · rw [if_pos h0] at hc; cases hc
  · rw [if_neg h0] at hc
    obtain ⟨a, ha, hca⟩ := List.mem_flatMap.mp hc
    by_cases h1 : ml < a.length
    · rw [if_pos h1] at hca
      exact chunk_hierarchical_trimmed c hca
    · rw [if_neg h1] at hca
      rcases List.mem_singleton.mp hca with h
      subst h
      exact chunkByWordsLoop_trimmed _ _ _ c ha

/-! ## `chunk_text`: every strategy is bounded, content-preserving, and trimmed -/

theorem nwsJoin_map_pyStrip (l : List Str) : nwsJoin (l.map pyStrip) = nwsJoin l := by
  induction l with
  | nil => rfl
  | cons a t ih => rw [List.map_cons, nwsJoin_cons, nwsJoin_cons, nws_pyStrip, ih]

theorem chunk_text_bound {cfg : PyConfig} {text strategy : Str} {mo : Option ℤ} :
    ∀ c ∈ chunk_text cfg text strategy mo,
      c.length ≤ (chunkTextEffectiveMax cfg mo).toNat := by
  intro c hc
  unfold chunk_text at hc
  by_cases h0 : pyStrip text = []
  · rw [if_pos h0] at hc; cases hc
  · rw [if_neg h0] at hc
    set n := (chunkTextEffectiveMax cfg mo).toNat with hn
    by_cases h1 : pyLower (if strategy = [] then ("sentence").data else strategy)
        = ("fixed").data
    · rw [if_pos h1] at hc
      have hmem := List.mem_of_mem_filter hc
      obtain ⟨w, hw, hcw⟩ := List.mem_map.mp hmem
      rw [← hcw]
      exact le_trans (pyStrip_length_le w) (chunksOf_length_le hw)
    · rw [if_neg h1] at hc
      by_cases h2 : pyLower (if strategy = [] then ("sentence").data else strategy)
          = ("paragraph").data
      · rw [if_pos h2] at hc
        exact chunk_by_paragraphs_bound c hc
      · rw [if_neg h2] at hc
        by_cases h3 : pyLower (if strategy = [] then ("sentence").data else strategy)
            = ("word").data
        · rw [if_pos h3] at hc
          exact chunk_by_words_bound c hc
        · rw [if_neg h3] at hc
          exact chunk_hierarchical_bound c hc

theorem chunk_text_nws {cfg : PyConfig} {text strategy : Str} {mo : Option ℤ}
    (hml : 1 ≤ (chunkTextEffectiveMax cfg mo).toNat) :
    nwsJoin (chunk_text cfg text strategy mo) = nws text := by
  unfold chunk_text
  by_cases h0 : pyStrip text = []
  · rw [if_pos h0]
    have : nws text = [] := (pyStrip_eq_nil_iff text).mp h0
    rw [this]
    rfl
  · rw [if_neg h0]
    have hnt : nws (pyStrip text) = nws text := nws_pyStrip text
    by_cases h1 : pyLower (if strategy = [] then ("sentence").data else strategy)
        = ("fixed").data
    · rw [if_pos h1, nwsJoin_filter_ne_nil, nwsJoin_map_pyStrip, chunksOf_nwsJoin hml, hnt]
    · rw [if_neg h1]
      by_cases h2 : pyLower (if strategy = [] then ("sentence").data else strategy)
          = ("paragraph").data
      · rw [if_pos h2, chunk_by_paragraphs_nws hml, hnt]
      · rw [if_neg h2]
        by_cases h3 : pyLower (if strategy = [] then ("sentence").data else strategy)
            = ("word").data
        · rw [if_pos h3, chunk_by_words_nws hml, hnt]
        · rw [if_neg h3, chunk_hierarchical_nws hml, hnt]

theorem chunk_text_trimmed {cfg : PyConfig} {text strategy : Str} {mo : Option ℤ} :
    ∀ c ∈ chunk_text cfg text strategy mo, pyStrip c ≠ [] := by
  intro c hc
  unfold chunk_text at hc
  by_cases h0 : pyStrip text = []
  · rw [if_pos h0] at hc; cases hc
  · rw [if_neg h0] at hc
    by_cases h1 : pyLower (if strategy = [] then ("sentence").data else strategy)
        = ("fixed").data
    · rw [if_pos h1] at hc
      have hne : c ≠ [] := by
        have := List.of_mem_filter hc
        simpa using this
      obtain ⟨w, hw, hcw⟩ := List.mem_map.mp (List.mem_of_mem_filter hc)
      rw [← hcw, pyStrip_idem]
      rw [← hcw] at hne
      exact hne
    · rw [if_neg h1] at hc
      by_cases h2 : pyLower (if strategy = [] then ("sentence").data else strategy)
          = ("paragraph").data
      · rw [if_pos h2] at hc
        exact chunk_by_paragraphs_trimmed c hc
      · rw [if_neg h2] at hc
        by_cases h3 : pyLower (if strategy = [] then ("sentence").data else strategy)
            = ("word").data
        · rw [if_pos h3] at hc
          exact chunk_by_words_trimmed c hc
        · rw [if_neg h3] at hc
          exact chunk_hierarchical_trimmed c hc

/-! ## Streaming helpers: `_split_by_words` -/

theorem splitByWordsLoop_bound {ml : ℕ} :
    ∀ (ws : List Str) (cur : Str), cur.length ≤ ml →
      ∀ c ∈ splitByWordsLoop ml ws cur, c.length ≤ ml := by
  intro ws
  induction ws with
  | nil =>
    intro cur hcur c hc
    rw [splitByWordsLoop] at hc
    by_cases h0 : cur = []
    · rw [if_pos h0] at hc; cases hc
    · rw [if_neg h0] at hc
      rcases List.mem_singleton.mp hc with h
      subst h
      exact le_trans (pyStrip_length_le cur) hcur
  | cons w ws ih =>
    intro cur hcur c hc
    rw [splitByWordsLoop] at hc
    by_cases hfit : cur.length + w.length + 1 ≤ ml
    · rw [if_pos hfit] at hc
      refine ih _ ?_ c hc
      by_cases h0 : cur = []
      · rw [if_pos h0]
        omega
      · rw [if_neg h0]
        simp only [List.length_append, List.length_cons, List.length_nil]
        omega
    · rw [if_neg hfit] at hc
      rcases List.mem_append.mp hc with h2 | h2
      · by_cases h0 : cur = []
        · rw [if_pos h0] at h2; cases h2
        · rw [if_neg h0] at h2
          rcases List.mem_singleton.mp h2 with h
          subst h
          exact le_trans (pyStrip_length_le cur) hcur
      · by_cases hlong : ml < w.length
        · rw [if_pos hlong] at h2
          rcases List.mem_append.mp h2 with h3 | h3
          · exact chunksOf_length_le h3
          · exact ih [] (by simp) c h3
        · rw [if_neg hlong] at h2
          exact ih w (by omega) c h2

theorem splitByWordsLoop_nws {ml : ℕ} (hml : 1 ≤ ml) :
    ∀ (ws : List Str) (cur : Str),
      nwsJoin (splitByWordsLoop ml ws cur) = nws cur ++ nwsJoin ws := by
  intro ws
  induction ws with
  | nil =>
    intro cur
    rw [splitByWordsLoop]
    by_cases h0 : cur = []
    · rw [if_pos h0, h0]
      rfl
    · rw [if_neg h0]
      simp [nwsJoin_cons, nws_pyStrip]
  | cons w ws ih =>
    intro cur
    rw [splitByWordsLoop]
    by_cases hfit : cur.length + w.length + 1 ≤ ml
    · rw [if_pos hfit, ih _]
      by_cases h0 : cur = []
      · rw [if_pos h0, h0]
        simp [nwsJoin_cons, nws]
      · rw [if_neg h0]
        have : nws (cur ++ [' '] ++ w) = nws cur ++ nws w := by
          rw [nws_append, nws_append]
          have h2 : nws [' '] = [] := by decide
          rw [h2]
          simp
        rw [this]
        simp [nwsJoin_cons, List.append_assoc]
    · rw [if_neg hfit, nwsJoin_append]
      have hemit : nwsJoin (if cur = [] then [] else [pyStrip cur]) = nws cur := by
        by_cases h0 : cur = []
        · rw [if_pos h0, h0]
          rfl
        · rw [if_neg h0]
          simp [nwsJoin_cons, nws_pyStrip]
      rw [hemit]
      by_cases hlong : ml < w.length
      · rw [if_pos hlong, nwsJoin_append, chunksOf_nwsJoin hml, ih []]
        simp [nwsJoin_cons, List.append_assoc, nws]
      · rw [if_neg hlong, ih w]
        simp [nwsJoin_cons, List.append_assoc]

theorem split_by_words_bound {text : Str} {ml : ℕ} :
    ∀ c ∈ _split_by_words text ml, c.length ≤ ml := by
  intro c hc
  exact splitByWordsLoop_bound _ [] (by simp) c (List.mem_of_mem_filter hc)

theorem split_by_words_nws {text : Str} {ml : ℕ} (hml : 1 ≤ ml) :
    nwsJoin (_split_by_words text ml) = nws text := by
  unfold _split_by_words
  rw [nwsJoin_filter_strip, splitByWordsLoop_nws hml _ [], pySplit_nwsJoin]
  rfl

theorem split_by_words_trimmed {text : Str} {ml : ℕ} :
    ∀ c ∈ _split_by_words text ml, pyStrip c ≠ [] := by
  intro c hc
  have := List.of_mem_filter hc
  simpa using this

/-! ## Streaming helpers: `_split_long_sentence` -/

theorem intercalate_cons_cons (d x y : Str) (t : List Str) :
    List.intercalate d (x :: y :: t) = x ++ d ++ List.intercalate d (y :: t) := by
  simp [List.intercalate, List.intersperse]

theorem intercalate_single (d x : Str) : List.intercalate d [x] = x := by
  simp [List.intercalate]

theorem pySplitOnAux_ne_nil {d : Str} : ∀ fuel s, pySplitOnAux d fuel s ≠ [] := by
  intro fuel s
  rcases fuel with _ | fuel
  · simp [pySplitOnAux]
  · rw [pySplitOnAux]
    rcases findFrom s d 0 with _ | i
    · simp
    · simp

theorem pySplitOnAux_reconstruct {d : Str} (_hd : d ≠ []) :
    ∀ fuel s, List.intercalate d (pySplitOnAux d fuel s) = s := by
  intro fuel
  induction fuel with
  | zero =>
    intro s
    rw [pySplitOnAux, intercalate_single]
  | succ fuel ih =>
    intro s
    rw [pySplitOnAux]
    rcases hf : findFrom s d 0 with _ | i
    · rw [intercalate_single]
    · obtain ⟨-, hpre, -⟩ := findFrom_some hf
      dsimp only
      rcases hrest : pySplitOnAux d fuel (s.drop (i + d.length)) with _ | ⟨r0, rr⟩
      · exact absurd hrest (pySplitOnAux_ne_nil fuel _)
      · rw [intercalate_cons_cons, ← hrest, ih (s.drop (i + d.length))]
        exact (prefix_drop_decomp hpre).symm

theorem pySplitOn_reconstruct {s d : Str} (hd : d ≠ []) :
    List.intercalate d (pySplitOn s d) = s :=
  pySplitOnAux_reconstruct hd s.length s

theorem pySplitOn_ne_nil {s d : Str} : pySplitOn s d ≠ [] :=
  pySplitOnAux_ne_nil s.length s

theorem nws_intercalate_general (d : Str) :
    ∀ (ps : List Str) (p0 : Str),
      nws (List.intercalate d (p0 :: ps)) =
        nws p0 ++ (ps.map (fun p => nws d ++ nws p)).flatten := by
  intro ps
  induction ps with
  | nil =>
    intro p0
    rw [intercalate_single]
    simp
  | cons p1 t ih =>
    intro p0
    rw [intercalate_cons_cons, nws_append, nws_append, ih p1]
    simp [List.append_assoc]

theorem sublist_of_eq {a b : Str} (h : a = b) : List.Sublist a b := h ▸ List.Sublist.refl a

theorem regroupParts_sublist {d : Str} {ml : ℕ} :
    ∀ (ps : List Str) (cur : Str),
      List.Sublist (nwsJoin (regroupParts d ml ps cur))
        (nws cur ++ (ps.map (fun p => nws d ++ nws p)).flatten) := by
  intro ps
  induction ps with
  | nil =>
    intro cur
    by_cases h0 : cur = []
    · rw [regroupParts, if_pos h0]
      simp
    · rw [regroupParts, if_neg h0]
      simp [nwsJoin_cons]
  | cons p ps ih =>
    intro cur
    rw [regroupParts]
    by_cases hfit : cur.length + d.length + p.length ≤ ml
    · rw [if_pos hfit]
      by_cases h0 : cur = []
      · have hcur' : cur ++ (if cur = [] then [] else d) ++ p = p := by
          rw [if_pos h0, h0]
          simp
        rw [hcur']
        refine (ih p).trans ?_
        rw [List.map_cons, List.flatten_cons, h0]
        simp only [nws, List.filter_nil, List.nil_append]
        rw [List.append_assoc]
        exact List.sublist_append_of_sublist_right (List.Sublist.refl _)
      · have hcur' : nws (cur ++ (if cur = [] then [] else d) ++ p) =
            nws cur ++ nws d ++ nws p := by
          rw [if_neg h0, nws_append, nws_append]
        refine (ih _).trans ?_
        rw [hcur', List.map_cons, List.flatten_cons]
        simp [List.append_assoc]
    · rw [if_neg hfit]
      rw [nwsJoin_append]
      have hemit : nwsJoin (if cur = [] then [] else [cur]) = nws cur := by
        by_cases h0 : cur = []
        · rw [if_pos h0, h0]
          rfl
        · rw [if_neg h0]
          simp [nwsJoin_cons]
      rw [hemit]
      refine List.Sublist.append (List.Sublist.refl _) ?_
      refine (ih p).trans ?_
      rw [List.map_cons, List.flatten_cons, List.append_assoc]
      exact List.sublist_append_of_sublist_right (List.Sublist.refl _)

theorem regroupParts_nil_start {d : Str} {ml : ℕ} (p : Str) (ps : List Str) :
    regroupParts d ml (p :: ps) [] = regroupParts d ml ps p := by
  rw [regroupParts]
  by_cases hfit : ([] : Str).length + d.length + p.length ≤ ml
  · rw [if_pos hfit]
    simp
  · rw [if_neg hfit]
    simp

theorem regroup_chunk_sublist {d : Str} {ml : ℕ} (hd : d ≠ []) (c : Str) :
    List.Sublist (nwsJoin (regroupParts d ml (pySplitOn c d) [])) (nws c) := by
  rcases hparts : pySplitOn c d with _ | ⟨p0, ps⟩
  · exact absurd hparts pySplitOn_ne_nil
  · rw [regroupParts_nil_start]
    refine (regroupParts_sublist ps p0).trans ?_
    have : nws c = nws p0 ++ (ps.map (fun p => nws d ++ nws p)).flatten := by
      conv_lhs => rw [← pySplitOn_reconstruct (s := c) hd, hparts]
      exact nws_intercalate_general d ps p0
    rw [this]

theorem splitLongSentenceFold_sublist {ml : ℕ} :
    ∀ (ds : List Str) (chunks : List Str), (∀ d ∈ ds, d ≠ []) →
      List.Sublist (nwsJoin (splitLongSentenceFold ml ds chunks)) (nwsJoin chunks) := by
  intro ds
  induction ds with
  | nil => intro chunks _; exact List.Sublist.refl _
  | cons d ds ih =>
    intro chunks hne
    rw [splitLongSentenceFold]
    refine (ih _ (fun x hx => hne x (by simp [hx]))).trans ?_
    refine nwsJoin_flatMap_sublist ?_
    intro c _
    by_cases hlen : c.length ≤ ml
    · rw [if_pos hlen]
      exact sublist_of_eq (by simp [nwsJoin_cons])
    · rw [if_neg hlen]
      exact regroup_chunk_sublist (hne d (by simp)) c

theorem split_long_sentence_bound {s : Str} {ml : ℕ} :
    ∀ c ∈ _split_long_sentence s ml, c.length ≤ ml := by
  intro c hc
  unfold _split_long_sentence at hc
  have hmem := List.mem_of_mem_filter hc
  obtain ⟨x, hx, hcx⟩ := List.mem_map.mp hmem
  obtain ⟨a, ha, hax⟩ := List.mem_flatMap.mp hx
  rw [← hcx]
  by_cases hlen : a.length ≤ ml
  · rw [if_pos hlen] at hax
    rcases List.mem_singleton.mp hax with h
    subst h
    exact le_trans (pyStrip_length_le x) hlen
  · rw [if_neg hlen] at hax
    exact le_trans (pyStrip_length_le x) (split_by_words_bound x hax)

theorem split_long_sentence_sublist {s : Str} {ml : ℕ} (hml : 1 ≤ ml) :
    List.Sublist (nwsJoin (_split_long_sentence s ml)) (nws s) := by
  unfold _split_long_sentence
  rw [nwsJoin_filter_ne_nil, nwsJoin_map_pyStrip]
  have hfm : nwsJoin ((splitLongSentenceFold ml subDelimiters [s]).flatMap
      (fun c => if c.length ≤ ml then [c] else _split_by_words c ml)) =
      nwsJoin (splitLongSentenceFold ml subDelimiters [s]) := by
    refine nwsJoin_flatMap_eq ?_
    intro c _
    by_cases hlen : c.length ≤ ml
    · rw [if_pos hlen]
      simp [nwsJoin_cons]
    · rw [if_neg hlen]
      exact split_by_words_nws hml
  rw [hfm]
  refine (splitLongSentenceFold_sublist subDelimiters [s] (by decide)).trans ?_
  exact sublist_of_eq (by simp [nwsJoin_cons])

theorem split_long_sentence_trimmed {s : Str} {ml : ℕ} :
    ∀ c ∈ _split_long_sentence s ml, pyStrip c ≠ [] := by
  intro c hc
  unfold _split_long_sentence at hc
  have hne : c ≠ [] := by
    have := List.of_mem_filter hc
    simpa using this
  obtain ⟨x, hx, hcx⟩ := List.mem_map.mp (List.mem_of_mem_filter hc)
  rw [← hcx, pyStrip_idem]
  rw [← hcx] at hne
  exact hne

/-! ## Streaming helpers: `_split_by_sentences` and `_split_by_paragraphs` -/

theorem splitBySentencesLoop_bound {ml : ℕ} :
    ∀ (ss : List Str) (cur : Str), cur.length ≤ ml →
      ∀ c ∈ splitBySentencesLoop ml ss cur, c.length ≤ ml := by
  intro ss
  induction ss with
  | nil =>
    intro cur hcur c hc
    rw [splitBySentencesLoop] at hc
    by_cases h0 : cur = []
    · rw [if_pos h0] at hc; cases hc
    · rw [if_neg h0] at hc
      rcases List.mem_singleton.mp hc with h
      subst h
      exact le_trans (pyStrip_length_le cur) hcur
  | cons s ss ih =>
    intro cur hcur c hc
    rw [splitBySentencesLoop] at hc
    by_cases hskip : pyStrip s = []
    · rw [if_pos hskip] at hc
      exact ih cur hcur c hc
    · rw [if_neg hskip] at hc
      by_cases hfit : cur.length + (pyStrip s).length + 1 ≤ ml
      · rw [if_pos hfit] at hc
        refine ih _ ?_ c hc
        by_cases h0 : cur = []
        · rw [if_pos h0]
          omega
        · rw [if_neg h0]
          simp only [List.length_append, List.length_cons, List.length_nil]
          omega
      · rw [if_neg hfit] at hc
        rcases List.mem_append.mp hc with h2 | h2
        · by_cases h0 : cur = []
          · rw [if_pos h0] at h2; cases h2
          · rw [if_neg h0] at h2
            rcases List.mem_singleton.mp h2 with h
            subst h
            exact le_trans (pyStrip_length_le cur) hcur
        · by_cases hlong : ml < (pyStrip s).length
          · rw [if_pos hlong] at h2
            rcases List.mem_append.mp h2 with h3 | h3
            · exact split_long_sentence_bound c h3
            · exact ih [] (by simp) c h3
          · rw [if_neg hlong] at h2
            exact ih _ (by omega) c h2

theorem splitBySentencesLoop_sublist {ml : ℕ} (hml : 1 ≤ ml) :
    ∀ (ss : List Str) (cur : Str),
      List.Sublist (nwsJoin (splitBySentencesLoop ml ss cur)) (nws cur ++ nwsJoin ss) := by
  intro ss
  induction ss with
  | nil =>
    intro cur
    rw [splitBySentencesLoop]
    by_cases h0 : cur = []
    · rw [if_pos h0, h0]
      simp
    · rw [if_neg h0]
      simp [nwsJoin_cons, nws_pyStrip]
  | cons s ss ih =>
    intro cur
    rw [splitBySentencesLoop]
    by_cases hskip : pyStrip s = []
    · rw [if_pos hskip]
      have hnss : nws s = [] := by
        rw [← nws_pyStrip, hskip]
        rfl
      refine (ih cur).trans (sublist_of_eq ?_)
      rw [nwsJoin_cons, hnss]
      simp
    · rw [if_neg hskip]
      by_cases hfit : cur.length + (pyStrip s).length + 1 ≤ ml
      · rw [if_pos hfit]
        refine (ih _).trans (sublist_of_eq ?_)
        by_cases h0 : cur = []
        · rw [if_pos h0, h0, nws_pyStrip, nwsJoin_cons]
          simp [nws]
        · rw [if_neg h0]
          have : nws (cur ++ [' '] ++ pyStrip s) = nws cur ++ nws s := by
            rw [nws_append, nws_append, nws_pyStrip]
            have h2 : nws [' '] = [] := by decide
            rw [h2]
            simp
          rw [this, nwsJoin_cons, List.append_assoc]
      · rw [if_neg hfit]
        rw [nwsJoin_append]
        have hemit : nwsJoin (if cur = [] then [] else [pyStrip cur]) = nws cur := by
          by_cases h0 : cur = []
          · rw [if_pos h0, h0]
            rfl
          · rw [if_neg h0]
            simp [nwsJoin_cons, nws_pyStrip]
        rw [hemit, nwsJoin_cons]
        refine List.Sublist.append (List.Sublist.refl _) ?_
        by_cases hlong : ml < (pyStrip s).length
        · rw [if_pos hlong, nwsJoin_append]
          refine List.Sublist.append ?_ ?_
          · exact (split_long_sentence_sublist hml).trans (sublist_of_eq (nws_pyStrip s))
          · refine (ih []).trans (sublist_of_eq ?_)
            simp [nws]
        · rw [if_neg hlong]
          refine (ih _).trans (sublist_of_eq ?_)
          rw [nws_pyStrip]

theorem split_by_sentences_bound {text : Str} {ml : ℕ} :
    ∀ c ∈ _split_by_sentences text ml, c.length ≤ ml := by
  intro c hc
  exact splitBySentencesLoop_bound _ [] (by simp) c (List.mem_of_mem_filter hc)

theorem split_by_sentences_sublist {text : Str} {ml : ℕ} (hml : 1 ≤ ml) :
    List.Sublist (nwsJoin (_split_by_sentences text ml)) (nws text) := by
  unfold _split_by_sentences
  rw [nwsJoin_filter_strip]
  refine (splitBySentencesLoop_sublist hml _ []).trans (sublist_of_eq ?_)
  rw [reSentenceSplit_nws, nws_pyStrip]
  simp [nws]

theorem split_by_sentences_trimmed {text : Str} {ml : ℕ} :
    ∀ c ∈ _split_by_sentences text ml, pyStrip c ≠ [] := by
  intro c hc
  have := List.of_mem_filter hc
  simpa using this

theorem splitByParagraphsLoop_bound {ml : ℕ} :
    ∀ (ps : List Str) (cur : Str), cur.length ≤ ml →
      ∀ c ∈ splitByParagraphsLoop ml ps cur, c.length ≤ ml := by
  intro ps
  induction ps with
  | nil =>
    intro cur hcur c hc
    rw [splitByParagraphsLoop] at hc
    by_cases h0 : cur = []
    · rw [if_pos h0] at hc; cases hc
    · rw [if_neg h0] at hc
      rcases List.mem_singleton.mp hc with h
      subst h
      exact le_trans (pyStrip_length_le cur) hcur
  | cons p ps ih =>
    intro cur hcur c hc
    rw [splitByParagraphsLoop] at hc
    by_cases hskip : pyStrip p = []
    · rw [if_pos hskip] at hc
      exact ih cur hcur c hc
    · rw [if_neg hskip] at hc
      by_cases hfit : cur.length + (pyStrip p).length + 2 ≤ ml
      · rw [if_pos hfit] at hc
        refine ih _ ?_ c hc
        by_cases h0 : cur = []
        · rw [if_pos h0]
          omega
        · rw [if_neg h0]
          simp only [List.length_append, List.length_cons, List.length_nil]
          omega
      · rw [if_neg hfit] at hc
        rcases List.mem_append.mp hc with h2 | h2
        · by_cases h0 : cur = []
          · rw [if_pos h0] at h2; cases h2
          · rw [if_neg h0] at h2
            rcases List.mem_singleton.mp h2 with h
            subst h
            exact le_trans (pyStrip_length_le cur) hcur
        · by_cases hlong : ml < (pyStrip p).length
          · rw [if_pos hlong] at h2
            rcases List.mem_append.mp h2 with h3 | h3
            · exact split_by_sentences_bound c h3
            · exact ih [] (by simp) c h3
          · rw [if_neg hlong] at h2
            exact ih _ (by omega) c h2

theorem splitByParagraphsLoop_sublist {ml : ℕ} (hml : 1 ≤ ml) :
    ∀ (ps : List Str) (cur : Str),
      List.Sublist (nwsJoin (splitByParagraphsLoop ml ps cur)) (nws cur ++ nwsJoin ps) := by
  intro ps
  induction ps with
  | nil =>
    intro cur
    rw [splitByParagraphsLoop]
    by_cases h0 : cur = []
    · rw [if_pos h0, h0]
      simp
    · rw [if_neg h0]
      simp [nwsJoin_cons, nws_pyStrip]
  | cons p ps ih =>
    intro cur
    rw [splitByParagraphsLoop]
    by_cases hskip : pyStrip p = []
    · rw [if_pos hskip]
      have hnss : nws p = [] := by
        rw [← nws_pyStrip, hskip]
        rfl
      refine (ih cur).trans (sublist_of_eq ?_)
      rw [nwsJoin_cons, hnss]
      simp
    · rw [if_neg hskip]
      by_cases hfit : cur.length + (pyStrip p).length + 2 ≤ ml
      · rw [if_pos hfit]
        refine (ih _).trans (sublist_of_eq ?_)
        by_cases h0 : cur = []
        · rw [if_pos h0, h0, nws_pyStrip, nwsJoin_cons]
          simp [nws]
        · rw [if_neg h0]
          have : nws (cur ++ ['\n', '\n'] ++ pyStrip p) = nws cur ++ nws p := by
            rw [nws_append, nws_append, nws_pyStrip]
            have h2 : nws ['\n', '\n'] = [] := by decide
            rw [h2]
            simp
          rw [this, nwsJoin_cons, List.append_assoc]
      · rw [if_neg hfit]
        rw [nwsJoin_append]
        have hemit : nwsJoin (if cur = [] then [] else [pyStrip cur]) = nws cur := by
          by_cases h0 : cur = []
          · rw [if_pos h0, h0]
            rfl
          · rw [if_neg h0]
            simp [nwsJoin_cons, nws_pyStrip]
        rw [hemit, nwsJoin_cons]
        refine List.Sublist.append (List.Sublist.refl _) ?_
        by_cases hlong : ml < (pyStrip p).length
        · rw [if_pos hlong, nwsJoin_append]
          refine List.Sublist.append ?_ ?_
          · exact (split_by_sentences_sublist hml).trans (sublist_of_eq (nws_pyStrip p))
          · refine (ih []).trans (sublist_of_eq ?_)
            simp [nws]
        · rw [if_neg hlong]
          refine (ih _).trans (sublist_of_eq ?_)
          rw [nws_pyStrip]

theorem split_by_paragraphs_bound {text : Str} {ml : ℕ} :
    ∀ c ∈ _split_by_paragraphs text ml, c.length ≤ ml := by
  intro c hc
  exact splitByParagraphsLoop_bound _ [] (by simp) c (List.mem_of_mem_filter hc)

theorem split_by_paragraphs_sublist {text : Str} {ml : ℕ} (hml : 1 ≤ ml) :
    List.Sublist (nwsJoin (_split_by_paragraphs text ml)) (nws text) := by
  unfold _split_by_paragraphs
  rw [nwsJoin_filter_strip]
  refine (splitByParagraphsLoop_sublist hml _ []).trans (sublist_of_eq ?_)
  rw [reParaSplit_nws, nws_pyStrip]
  simp [nws]

theorem split_by_paragraphs_trimmed {text : Str} {ml : ℕ} :
    ∀ c ∈ _split_by_paragraphs text ml, pyStrip c ≠ [] := by
  intro c hc
  have := List.of_mem_filter hc
  simpa using this

theorem split_by_fixed_size_bound {text : Str} {size : ℕ} :
    ∀ c ∈ _split_by_fixed_size text size, c.length ≤ size := by
  intro c hc
  obtain ⟨w, hw, hcw⟩ := List.mem_map.mp (List.mem_of_mem_filter hc)
  rw [← hcw]
  exact le_trans (pyStrip_length_le w) (chunksOf_length_le hw)

theorem split_by_fixed_size_nws {text : Str} {size : ℕ} (hsize : 1 ≤ size) :
    nwsJoin (_split_by_fixed_size text size) = nws text := by
  unfold _split_by_fixed_size
  rw [nwsJoin_filter_ne_nil, nwsJoin_map_pyStrip, chunksOf_nwsJoin hsize]

theorem split_by_fixed_size_trimmed {text : Str} {size : ℕ} :
    ∀ c ∈ _split_by_fixed_size text size, pyStrip c ≠ [] := by
  intro c hc
  have hne : c ≠ [] := by
    have := List.of_mem_filter hc
    simpa using this
  obtain ⟨w, hw, hcw⟩ := List.mem_map.mp (List.mem_of_mem_filter hc)
  rw [← hcw, pyStrip_idem]
  rw [← hcw] at hne
  exact hne

/-! ## The streaming dispatcher -/

theorem orI_some_ne {m d : ℤ} (hm : m ≠ 0) : orI (some m) d = m := by
  unfold orI
  dsimp only
  rw [if_neg hm]

theorem streamingPreset_size {m : ℤ} (hm : m ≠ 0) (strat q : Option Str) :
    (streamingPreset (some m) strat q).1 = some m := by
  unfold streamingPreset
  rcases q with _ | qq
  · rfl
  · dsimp only
    by_cases h0 : qq = []
    · rw [if_pos h0]
    · rw [if_neg h0]
      by_cases h1 : qq = ("fast").data
      · rw [if_pos h1]
        simp [orI_some_ne hm]
      · rw [if_neg h1]
        by_cases h2 : qq = ("balanced").data
        · rw [if_pos h2]
          simp [orI_some_ne hm]
        · rw [if_neg h2]
          by_cases h3 : qq = ("high").data
          · rw [if_pos h3]
            simp [orI_some_ne hm]
          · rw [if_neg h3]

/-- `split_text_for_streaming` always runs one of the four helpers, at a chunk
size that equals the caller's `chunk_size` whenever that was given and nonzero. -/
theorem split_text_for_streaming_cases (text : Str) (cso : Option ℤ) (strat q : Option Str) :
    ∃ cs : ℤ,
      (∀ m, cso = some m → m ≠ 0 → cs = m) ∧
      (split_text_for_streaming text cso strat q = _split_by_paragraphs text cs.toNat ∨
       split_text_for_streaming text cso strat q = _split_by_sentences text cs.toNat ∨
       split_text_for_streaming text cso strat q = _split_by_words text cs.toNat ∨
       split_text_for_streaming text cso strat q = _split_by_fixed_size text cs.toNat) := by
  refine ⟨orI (streamingPreset cso strat q).1 200, ?_, ?_⟩
  · intro m hcso hm
    subst hcso
    rw [streamingPreset_size hm strat q]
    exact orI_some_ne hm
  · unfold split_text_for_streaming
    by_cases h1 : orS (streamingPreset cso strat q).2 (("sentence").data) = ("paragraph").data
    · rw [if_pos h1]
      left
      rfl
    · rw [if_neg h1]
      by_cases h2 : orS (streamingPreset cso strat q).2 (("sentence").data) = ("sentence").data
      · rw [if_pos h2]
        right; left
        rfl
      · rw [if_neg h2]
        by_cases h3 : orS (streamingPreset cso strat q).2 (("sentence").data) = ("word").data
        · rw [if_pos h3]
          right; right; left
          rfl
        · rw [if_neg h3]
          by_cases h4 : orS (streamingPreset cso strat q).2 (("sentence").data)
              = ("fixed").data
          · rw [if_pos h4]
            right; right; right
            rfl
          · rw [if_neg h4]
            right; left
            rfl

/-! # Claim theorems -/

theorem chunkTextEffectiveMax_pos {cfg : PyConfig} {m : ℤ} (hm : 0 < m) :
    0 < chunkTextEffectiveMax cfg (some m) ∧ chunkTextEffectiveMax cfg (some m) ≤ m := by
  unfold chunkTextEffectiveMax
  dsimp only
  rw [if_neg (by omega : ¬ m ≤ 0)]
  by_cases h : min m (cfg.MAX_TOTAL_LENGTH - 100) ≤ 0
  · rw [if_pos h]
    exact ⟨hm, le_refl m⟩
  · rw [if_neg h]
    exact ⟨by omega, min_le_left ..⟩

theorem mem_enumFrom_snd {α : Type} :
    ∀ (l : List α) (n : ℕ) (p : ℕ × α), p ∈ l.enumFrom n → p.2 ∈ l := by
  intro l
  induction l with
  | nil => intro n p hp; cases hp
  | cons a t ih =>
    intro n p hp
    rcases List.mem_cons.mp hp with h | h
    · subst h; simp
    · exact List.mem_cons_of_mem a (ih (n + 1) p h)

/-- C1: for every strategy (fixed, paragraph, word, sentence, hierarchical —
for `chunk_text` the dispatcher, for `split_text_for_streaming` the streaming
dispatcher, with an arbitrary strategy string covering all five plus the
default), every input text and every `max_length > 0`, every produced chunk
satisfies `len(chunk) ≤ max_length`.  This is the claim in a strengthened form:
the "single indivisible word longer than max_length is emitted as-is" exception
never occurs in these two entry points (long words are force-split at character
boundaries), so the claimed per-chunk disjunction holds because its first
disjunct always does. -/
theorem C1_chunk_length_bound (cfg : PyConfig) (strategy text : Str) (m : ℤ)
    (hm : 0 < m) :
    (∀ c ∈ chunk_text cfg text strategy (some m), (c.length : ℤ) ≤ m) ∧
    (∀ q, ∀ c ∈ split_text_for_streaming text (some m) (some strategy) q,
      (c.length : ℤ) ≤ m) := by
  constructor
  · intro c hc
    have h1 := chunk_text_bound c hc
    obtain ⟨hp, hle⟩ := @chunkTextEffectiveMax_pos cfg _ hm
    have h2 : ((chunkTextEffectiveMax cfg (some m)).toNat : ℤ) =
        chunkTextEffectiveMax cfg (some m) := Int.toNat_of_nonneg (by omega)
    calc (c.length : ℤ) ≤ ((chunkTextEffectiveMax cfg (some m)).toNat : ℤ) := by
          exact_mod_cast h1
      _ = chunkTextEffectiveMax cfg (some m) := h2
      _ ≤ m := hle
  · intro q c hc
    obtain ⟨cs, hcs, hcases⟩ := split_text_for_streaming_cases text (some m) (some strategy) q
    have hcsm : cs = m := hcs m rfl (by omega)
    subst hcsm
    have hlen : c.length ≤ cs.toNat := by
      rcases hcases with h | h | h | h
      · rw [h] at hc; exact split_by_paragraphs_bound c hc
      · rw [h] at hc; exact split_by_sentences_bound c hc
      · rw [h] at hc; exact split_by_words_bound c hc
      · rw [h] at hc; exact split_by_fixed_size_bound c hc
    calc (c.length : ℤ) ≤ (cs.toNat : ℤ) := by exact_mod_cast hlen
      _ = cs := Int.toNat_of_nonneg (by omega)

theorem C1_chunk_length_bound_witness :
    (∀ c ∈ chunk_text ⟨3000, 500, ("sentence").data, 1, 100000⟩ (("hi there").data)
      (("word").data) (some 5), (c.length : ℤ) ≤ 5) ∧
    (∀ q, ∀ c ∈ split_text_for_streaming (("hi there").data) (some 5)
      (some (("word").data)) q, (c.length : ℤ) ≤ 5) :=
  C1_chunk_length_bound ⟨3000, 500, ("sentence").data, 1, 100000⟩ (("word").data)
    (("hi there").data) 5 (by decide)

/-- C6: for every `max_length > 0`, every strategy and any input text, every
produced chunk is non-empty after trimming, and the chunks preserve the
original left-to-right order of the content: the concatenation of the chunks'
non-whitespace characters is an ordered sublist of the input's non-whitespace
characters, which rules out reordering, duplication, and content invented by
merging non-adjacent regions. -/
theorem C6_nonempty_ordered (cfg : PyConfig) (strategy text : Str) (m : ℤ)
    (hm : 0 < m) :
    ((∀ c ∈ chunk_text cfg text strategy (some m), pyStrip c ≠ []) ∧
      List.Sublist (nwsJoin (chunk_text cfg text strategy (some m))) (nws text)) ∧
    (∀ q, (∀ c ∈ split_text_for_streaming text (some m) (some strategy) q,
        pyStrip c ≠ []) ∧
      List.Sublist (nwsJoin (split_text_for_streaming text (some m) (some strategy) q))
        (nws text)) := by
  constructor
  · refine ⟨fun c hc => chunk_text_trimmed c hc, ?_⟩
    obtain ⟨hp, -⟩ := @chunkTextEffectiveMax_pos cfg _ hm
    exact sublist_of_eq (chunk_text_nws (by omega))
  · intro q
    obtain ⟨cs, hcs, hcases⟩ := split_text_for_streaming_cases text (some m) (some strategy) q
    have hcsm : cs = m := hcs m rfl (by omega)
    subst hcsm
    have hml : 1 ≤ cs.toNat := by omega
    constructor
    · intro c hc
      rcases hcases with h | h | h | h
      · rw [h] at hc; exact split_by_paragraphs_trimmed c hc
      · rw [h] at hc; exact split_by_sentences_trimmed c hc
      · rw [h] at hc; exact split_by_words_trimmed c hc
      · rw [h] at hc; exact split_by_fixed_size_trimmed c hc
    · rcases hcases with h | h | h | h
      · rw [h]; exact split_by_paragraphs_sublist hml
      · rw [h]; exact split_by_sentences_sublist hml
      · rw [h]; exact sublist_of_eq (split_by_words_nws hml)
      · rw [h]; exact sublist_of_eq (split_by_fixed_size_nws hml)

theorem C6_nonempty_ordered_witness :
    ((∀ c ∈ chunk_text ⟨3000, 500, ("sentence").data, 1, 100000⟩ (("hi there").data)
        (("fixed").data) (some 5), pyStrip c ≠ []) ∧
      List.Sublist (nwsJoin (chunk_text ⟨3000, 500, ("sentence").data, 1, 100000⟩
        (("hi there").data) (("fixed").data) (some 5))) (nws (("hi there").data))) ∧
    (∀ q, (∀ c ∈ split_text_for_streaming (("hi there").data) (some 5)
        (some (("fixed").data)) q, pyStrip c ≠ []) ∧
      List.Sublist (nwsJoin (split_text_for_streaming (("hi there").data) (some 5)
        (some (("fixed").data)) q)) (nws (("hi there").data))) :=
  C6_nonempty_ordered ⟨3000, 500, ("sentence").data, 1, 100000⟩ (("fixed").data)
    (("hi there").data) 5 (by decide)

/-- C10: `chunk_text` (and through it `split_text_for_long_generation`) never
splits against the caller's `max_length` directly: the effective limit is
`min(max_length, MAX_TOTAL_LENGTH - 100)` whenever that minimum is positive,
and `max_length` itself otherwise, so an oversized request is silently reduced
and every produced chunk (and every `LongTextChunk.character_count`) is bounded
by the smaller limit. -/
theorem C10_effective_limit (cfg : PyConfig) (text strategy : Str) (m : ℤ)
    (hm : 0 < m) :
    (0 < min m (cfg.MAX_TOTAL_LENGTH - 100) →
      chunkTextEffectiveMax cfg (some m) = min m (cfg.MAX_TOTAL_LENGTH - 100) ∧
      ∀ c ∈ chunk_text cfg text strategy (some m),
        (c.length : ℤ) ≤ min m (cfg.MAX_TOTAL_LENGTH - 100)) ∧
    (min m (cfg.MAX_TOTAL_LENGTH - 100) ≤ 0 →
      chunkTextEffectiveMax cfg (some m) = m ∧
      ∀ c ∈ chunk_text cfg text strategy (some m), (c.length : ℤ) ≤ m) ∧
    (∀ st, ∀ ch ∈ split_text_for_long_generation cfg text (some m) st,
      (ch.character_count : ℤ) ≤ chunkTextEffectiveMax cfg (some m)) := by
  have heff : chunkTextEffectiveMax cfg (some m) =
      if min m (cfg.MAX_TOTAL_LENGTH - 100) ≤ 0 then m
      else min m (cfg.MAX_TOTAL_LENGTH - 100) := by
    unfold chunkTextEffectiveMax
    dsimp only
    rw [if_neg (by omega : ¬ m ≤ 0)]
  obtain ⟨hpos, -⟩ := @chunkTextEffectiveMax_pos cfg _ hm
  have hboundZ : ∀ (strat : Str), ∀ c ∈ chunk_text cfg text strat (some m),
      (c.length : ℤ) ≤ chunkTextEffectiveMax cfg (some m) := by
    intro strat c hc
    have h1 := chunk_text_bound c hc
    calc (c.length : ℤ) ≤ ((chunkTextEffectiveMax cfg (some m)).toNat : ℤ) := by
          exact_mod_cast h1
      _ = chunkTextEffectiveMax cfg (some m) := Int.toNat_of_nonneg (by omega)
  refine ⟨?_, ?_, ?_⟩
  · intro h
    have he : chunkTextEffectiveMax cfg (some m) = min m (cfg.MAX_TOTAL_LENGTH - 100) := by
      rw [heff, if_neg (by omega)]
    exact ⟨he, fun c hc => he ▸ hboundZ strategy c hc⟩
  · intro h
    have he : chunkTextEffectiveMax cfg (some m) = m := by
      rw [heff, if_pos h]
    exact ⟨he, fun c hc => he ▸ hboundZ strategy c hc⟩
  · intro st ch hch
    unfold split_text_for_long_generation at hch
    dsimp only at hch
    rw [if_neg (by omega : ¬ m ≤ 0)] at hch
    obtain ⟨p, hp, hpch⟩ := List.mem_map.mp hch
    have hmem : p.2 ∈ chunk_text cfg text (orS st cfg.LONG_TEXT_CHUNKING_STRATEGY)
        (some m) := mem_enumFrom_snd _ 0 p hp
    have hcc : ch.character_count = p.2.length := by
      rw [← hpch]
    rw [hcc]
    exact hboundZ _ p.2 hmem

theorem C10_effective_limit_witness :
    (0 < min 5 ((3000 : ℤ) - 100) →
      chunkTextEffectiveMax ⟨3000, 500, ("sentence").data, 1, 100000⟩ (some 5) =
        min 5 ((3000 : ℤ) - 100) ∧
      ∀ c ∈ chunk_text ⟨3000, 500, ("sentence").data, 1, 100000⟩ (("hi there").data)
        (("word").data) (some 5), (c.length : ℤ) ≤ min 5 ((3000 : ℤ) - 100)) ∧
    (min 5 ((3000 : ℤ) - 100) ≤ 0 →
      chunkTextEffectiveMax ⟨3000, 500, ("sentence").data, 1, 100000⟩ (some 5) = 5 ∧
      ∀ c ∈ chunk_text ⟨3000, 500, ("sentence").data, 1, 100000⟩ (("hi there").data)
        (("word").data) (some 5), (c.length : ℤ) ≤ 5) ∧
    (∀ st, ∀ ch ∈ split_text_for_long_generation ⟨3000, 500, ("sentence").data, 1, 100000⟩
      (("hi there").data) (some 5) st,
      (ch.character_count : ℤ) ≤
        chunkTextEffectiveMax ⟨3000, 500, ("sentence").data, 1, 100000⟩ (some 5)) :=
  C10_effective_limit ⟨3000, 500, ("sentence").data, 1, 100000⟩ (("hi there").data)
    (("word").data) 5 (by decide)

set_option maxRecDepth 1000000 in
/-- C4: under the fixed strategy the trimmed input is sliced into consecutive
windows of exactly `max_length` characters (the last may be shorter):
the windows concatenate back to the trimmed text exactly, every window except
the last has length exactly `max_length`, the produced chunks are precisely the
trimmed non-empty windows, and a 1000-character input with `max_length = 100`
yields exactly 10 chunks. -/
theorem C4_fixed_reconstruction (cfg : PyConfig) (text : Str) (m : ℤ) (hm : 0 < m)
    (hcap : m ≤ cfg.MAX_TOTAL_LENGTH - 100) :
    (chunksOf m.toNat (pyStrip text)).flatten = pyStrip text ∧
    (∀ c ∈ (chunksOf m.toNat (pyStrip text)).dropLast, c.length = m.toNat) ∧
    (∀ c ∈ chunksOf m.toNat (pyStrip text), c.length ≤ m.toNat) ∧
    chunk_text cfg text (("fixed").data) (some m) =
      ((chunksOf m.toNat (pyStrip text)).map pyStrip).filter (fun c => c ≠ []) ∧
    (chunk_text ⟨3000, 500, ("sentence").data, 1, 100000⟩ (List.replicate 1000 'a')
      (("fixed").data) (some 100)).length = 10 := by
  have hm1 : 1 ≤ m.toNat := by omega
  refine ⟨chunksOf_flatten hm1 _, ?_, ?_, ?_, ?_⟩
  · exact chunksOfAux_dropLast_length hm1 _ _ (le_refl _)
  · intro c hc
    exact chunksOf_length_le hc
  · have heff : chunkTextEffectiveMax cfg (some m) = m := by
      unfold chunkTextEffectiveMax
      dsimp only
      rw [if_neg (by omega : ¬ m ≤ 0), min_eq_left hcap, if_neg (by omega)]
    unfold chunk_text
    rw [heff]
    by_cases h0 : pyStrip text = []
    · rw [if_pos h0, h0]
      rfl
    · rw [if_neg h0]
      rw [if_pos (by decide :
        pyLower (if ("fixed").data = [] then ("sentence").data else ("fixed").data)
          = ("fixed").data)]
  · decide

theorem C4_fixed_reconstruction_witness :
    (chunksOf (2 : ℤ).toNat (pyStrip (("  abcde  ").data))).flatten =
      pyStrip (("  abcde  ").data) ∧
    (∀ c ∈ (chunksOf (2 : ℤ).toNat (pyStrip (("  abcde  ").data))).dropLast,
      c.length = (2 : ℤ).toNat) ∧
    (∀ c ∈ chunksOf (2 : ℤ).toNat (pyStrip (("  abcde  ").data)),
      c.length ≤ (2 : ℤ).toNat) ∧
    chunk_text ⟨3000, 500, ("sentence").data, 1, 100000⟩ (("  abcde  ").data)
      (("fixed").data) (some 2) =
      ((chunksOf (2 : ℤ).toNat (pyStrip (("  abcde  ").data))).map pyStrip).filter
        (fun c => c ≠ []) ∧
    (chunk_text ⟨3000, 500, ("sentence").data, 1, 100000⟩ (List.replicate 1000 'a')
      (("fixed").data) (some 100)).length = 10 :=
  C4_fixed_reconstruction ⟨3000, 500, ("sentence").data, 1, 100000⟩ (("  abcde  ").data)
    2 (by decide) (by decide)

/-- C8: the hierarchical strategy terminates — whenever the (stripped)
remaining text is longer than `max_length ≥ 1`, the boundary finder returns a
non-empty head and a strictly shorter remainder, and when no boundary tier
succeeds and no space occurs before the limit it falls back to a hard character
cut at exactly `max_length`. -/
theorem C8_hierarchical_terminates (text : Str) (ml : ℕ) (h1 : 1 ≤ ml)
    (h2 : pyStrip text = text) (h3 : ml < text.length) :
    (_find_best_split_point text ml 0).1 ≠ [] ∧
    (_find_best_split_point text ml 0).2.length < text.length ∧
    (_try_split_at_paragraphs text ml 0 = none →
      _try_split_at_sentences text ml 0 = none →
      _try_split_at_clauses text ml 0 = none →
      rfindSpaceBefore text ml = none →
      _find_best_split_point text ml 0 = (pyStrip (text.take ml), pyStrip (text.drop ml))) := by
  obtain ⟨b, hble, hpos, hshape⟩ := @finder_shape text ml h3
  have hb1 : 1 ≤ b := hpos h2 h1
  have hne : text ≠ [] := by
    intro h
    rw [h] at h3
    simp at h3
  refine ⟨?_, ?_, ?_⟩
  · rw [hshape]
    exact pyStrip_take_ne_nil h2 hne hb1
  · rw [hshape]
    calc (pyStrip (text.drop b)).length ≤ (text.drop b).length := pyStrip_length_le _
      _ = text.length - b := List.length_drop ..
      _ < text.length := by omega
  · intro hp hs hc hr
    unfold _find_best_split_point
    rw [if_neg (by omega), hp, hs, hc]
    unfold _split_at_words
    rw [if_neg (by omega), hr]
    simp

theorem C8_hierarchical_terminates_witness :
    (_find_best_split_point (("hello world").data) 3 0).1 ≠ [] ∧
    (_find_best_split_point (("hello world").data) 3 0).2.length <
      (("hello world").data).length ∧
    (_try_split_at_paragraphs (("hello world").data) 3 0 = none →
      _try_split_at_sentences (("hello world").data) 3 0 = none →
      _try_split_at_clauses (("hello world").data) 3 0 = none →
      rfindSpaceBefore (("hello world").data) 3 = none →
      _find_best_split_point (("hello world").data) 3 0 =
        (pyStrip ((("hello world").data).take 3), pyStrip ((("hello world").data).drop 3))) :=
  C8_hierarchical_terminates (("hello world").data) 3 (by decide) (by decide) (by decide)

/-! ## C5: the processing-time estimate -/

theorem fdiv_ceil_eq (tl : ℕ) (e : ℤ) (he : 0 < e) :
    Int.fdiv ((tl : ℤ) + e - 1) e = ⌈(tl : ℚ) / (e : ℚ)⌉ := by
  rw [Int.fdiv_eq_ediv _ (le_of_lt he)]
  have hdm := Int.ediv_add_emod ((tl : ℤ) + e - 1) e
  have hr0 : 0 ≤ ((tl : ℤ) + e - 1) % e := Int.emod_nonneg _ (by omega)
  have hr1 : ((tl : ℤ) + e - 1) % e < e := Int.emod_lt_of_pos _ he
  set n : ℤ := ((tl : ℤ) + e - 1) / e with hn
  set r : ℤ := ((tl : ℤ) + e - 1) % e with hr
  have hen : e * n = (tl : ℤ) + e - 1 - r := by linarith
  have hub : (tl : ℤ) ≤ n * e := by
    have h2 : n * e = e * n := by ring
    linarith
  have hlb : (n - 1) * e < (tl : ℤ) := by
    have h2 : (n - 1) * e = e * n - e := by ring
    linarith
  have heQ : (0 : ℚ) < (e : ℚ) := by exact_mod_cast he
  symm
  rw [Int.ceil_eq_iff]
  constructor
  · rw [lt_div_iff₀ heQ]
    exact_mod_cast hlb
  · rw [div_le_iff₀ heQ]
    exact_mod_cast hub

/-- C5: `estimate_processing_time` equals
`floor(text_length / avg_chars_per_second) + 5 + 2*num_chunks + 10` with
`num_chunks = max 1 ⌈text_length / effective_chunk_size⌉ ≥ 1`, where the
effective chunk size falls back to the configured long-text chunk size when
the override is absent or non-positive; in particular
`estimate_processing_time(1000, 25, 200) = 65`. -/
theorem C5_estimate_formula (cfg : PyConfig) (tl : ℕ) (avg : ℚ) (cs : Option ℤ)
    (havg : 0 < avg) (hcfg : 0 < cfg.LONG_TEXT_CHUNK_SIZE) :
    estimate_processing_time cfg tl avg cs =
      ⌊(tl : ℚ) / avg⌋ + 5 +
        2 * max 1 ⌈(tl : ℚ) / ((claimEffectiveChunkSize cfg cs : ℤ) : ℚ)⌉ + 10 ∧
    1 ≤ max 1 ⌈(tl : ℚ) / ((claimEffectiveChunkSize cfg cs : ℤ) : ℚ)⌉ ∧
    estimate_processing_time cfg 1000 25 (some 200) = 65 := by
  have hconc : ∀ (cfg' : PyConfig), estimate_processing_time cfg' 1000 25 (some 200) = 65 := by
    intro cfg'
    unfold estimate_processing_time
    dsimp only
    have h1 : orI (some 200) cfg'.LONG_TEXT_CHUNK_SIZE = 200 := orI_some_ne (by omega)
    rw [h1, if_neg (by omega : ¬ (200 : ℤ) ≤ 0)]
    have h2 : Int.fdiv ((1000 : ℕ) + 200 - 1) 200 = 5 := by decide
    rw [h2]
    have h3 : max (1 : ℤ) 5 = 5 := by omega
    rw [h3]
    unfold pyInt
    rw [if_pos (by norm_num)]
    norm_num
  refine ⟨?_, le_max_left .., hconc cfg⟩
  unfold estimate_processing_time
  dsimp only
  have hecs : (if orI cs cfg.LONG_TEXT_CHUNK_SIZE ≤ 0 then cfg.LONG_TEXT_CHUNK_SIZE
      else orI cs cfg.LONG_TEXT_CHUNK_SIZE) = claimEffectiveChunkSize cfg cs := by
    unfold claimEffectiveChunkSize orI
    rcases cs with _ | c
    · dsimp only
      rw [if_neg (by omega)]
    · dsimp only
      by_cases hc0 : c = 0
      · subst hc0
        rw [if_pos rfl, ite_self, if_pos (le_refl (0 : ℤ))]
      · rw [if_neg hc0]
  rw [hecs]
  have hpos : 0 < claimEffectiveChunkSize cfg cs := by
    unfold claimEffectiveChunkSize
    rcases cs with _ | c
    · exact hcfg
    · dsimp only
      by_cases hcneg : c ≤ 0
      · rw [if_pos hcneg]; exact hcfg
      · rw [if_neg hcneg]; omega
  rw [fdiv_ceil_eq tl _ hpos]
  set nc : ℤ := max 1 ⌈(tl : ℚ) / ((claimEffectiveChunkSize cfg cs : ℤ) : ℚ)⌉ with hnc
  have hnc1 : 1 ≤ nc := le_max_left ..
  have hbase : (0 : ℚ) ≤ (tl : ℚ) / avg := div_nonneg (by positivity) (le_of_lt havg)
  unfold pyInt
  rw [if_pos (by
    have : (0 : ℚ) ≤ ((5 + nc * 2 + 10 : ℤ) : ℚ) := by
      push_cast
      have : (1 : ℚ) ≤ (nc : ℚ) := by exact_mod_cast hnc1
      linarith
    linarith)]
  rw [Int.floor_add_int]
  ring

theorem rat_zero_lt_25 : (0 : ℚ) < 25 := by norm_num

theorem C5_estimate_formula_witness :
    estimate_processing_time ⟨3000, 500, ("sentence").data, 1, 100000⟩ 1000 25 (some 200) =
      ⌊((1000 : ℕ) : ℚ) / 25⌋ + 5 +
        2 * max 1 ⌈((1000 : ℕ) : ℚ) /
          ((claimEffectiveChunkSize ⟨3000, 500, ("sentence").data, 1, 100000⟩
            (some 200) : ℤ) : ℚ)⌉ + 10 ∧
    1 ≤ max 1 ⌈((1000 : ℕ) : ℚ) /
      ((claimEffectiveChunkSize ⟨3000, 500, ("sentence").data, 1, 100000⟩
        (some 200) : ℤ) : ℚ)⌉ ∧
    estimate_processing_time ⟨3000, 500, ("sentence").data, 1, 100000⟩ 1000 25 (some 200) = 65 :=
  C5_estimate_formula ⟨3000, 500, ("sentence").data, 1, 100000⟩ 1000 25 (some 200)
    rat_zero_lt_25 (by decide)

/-! ## C9: audio concatenation with silence gaps -/

theorem foldl_silence (silence : List ℚ) :
    ∀ (cs : List (List ℚ)) (acc : List ℚ),
      cs.foldl (fun acc chunk => acc ++ silence ++ chunk) acc =
        acc ++ (cs.map (fun ch => silence ++ ch)).flatten
  | [], acc => by simp
  | ch :: t, acc => by
    rw [List.foldl_cons, foldl_silence silence t]
    simp [List.append_assoc]

theorem flatten_silence_length (g : ℕ) (cs : List (List ℚ)) :
    ((cs.map (fun ch => List.replicate g (0 : ℚ) ++ ch)).flatten).length =
      (cs.map List.length).sum + cs.length * g := by
  induction cs with
  | nil => simp
  | cons ch t ih =>
    simp only [List.map_cons, List.flatten_cons, List.length_append, ih,
      List.length_replicate, List.sum_cons, List.length_cons]
    ring

/-- C9: `concatenate_audio_chunks` returns its single segment unchanged; for a
head segment followed by further segments it prepends to each further segment
a silence gap of `int(0.1 * sample_rate)` zero samples, so the output length is
the sum of the segment lengths plus one gap per further segment; in particular
three one-second segments at 16000 Hz give `3*16000 + 2*1600` samples. -/
theorem C9_silence_gaps (c : List ℚ) (cs : List (List ℚ)) (sr : ℕ) :
    concatenate_audio_chunks [c] sr = some c ∧
    concatenate_audio_chunks (c :: cs) sr =
      some (c ++ (cs.map (fun ch =>
        List.replicate (pyInt ((1 / 10 : ℚ) * (sr : ℚ))).toNat (0 : ℚ) ++ ch)).flatten) ∧
    (concatenate_audio_chunks (c :: cs) sr).map List.length =
      some (c.length + (cs.map List.length).sum +
        cs.length * (pyInt ((1 / 10 : ℚ) * (sr : ℚ))).toNat) ∧
    (concatenate_audio_chunks (List.replicate 3 (List.replicate 16000 (0 : ℚ)))
        16000).map List.length = some (3 * 16000 + 2 * 1600) := by
  have harm : ∀ (c : List ℚ) (cs : List (List ℚ)) (sr : ℕ),
      concatenate_audio_chunks (c :: cs) sr =
        some (c ++ (cs.map (fun ch =>
          List.replicate (pyInt ((1 / 10 : ℚ) * (sr : ℚ))).toNat (0 : ℚ) ++ ch)).flatten) := by
    intro c cs sr
    cases cs with
    | nil => simp [concatenate_audio_chunks]
    | cons ch t =>
      unfold concatenate_audio_chunks
      dsimp only
      rw [foldl_silence]
  have hlen : ∀ (c : List ℚ) (cs : List (List ℚ)) (sr : ℕ),
      (concatenate_audio_chunks (c :: cs) sr).map List.length =
        some (c.length + (cs.map List.length).sum +
          cs.length * (pyInt ((1 / 10 : ℚ) * (sr : ℚ))).toNat) := by
    intro c cs sr
    rw [harm]
    rw [Option.map_some', List.length_append, flatten_silence_length, Nat.add_assoc]
  refine ⟨rfl, harm c cs sr, hlen c cs sr, ?_⟩
  have h3 : (List.replicate 3 (List.replicate 16000 (0 : ℚ))) =
      List.replicate 16000 (0 : ℚ) ::
        List.replicate 2 (List.replicate 16000 (0 : ℚ)) := rfl
  rw [h3, hlen]
  have hgap : (pyInt ((1 / 10 : ℚ) * ((16000 : ℕ) : ℚ))).toNat = 1600 := by
    have hq : (1 / 10 : ℚ) * ((16000 : ℕ) : ℚ) = ((1600 : ℤ) : ℚ) := by norm_num
    rw [pyInt, hq, if_pos (by norm_num), Int.floor_intCast]
    rfl
  rw [hgap]
  have hsum : (List.map List.length (List.replicate 2 (List.replicate 16000 (0 : ℚ)))).sum
      = 32000 := by
    rw [List.map_replicate, List.length_replicate]
    rfl
  rw [hsum, List.length_replicate, List.length_replicate]

/-! ## C3: the repetition check of `validate_long_text_input` -/

set_option maxRecDepth 10000 in
/-- C3 counterexample: a ten-word text whose single distinct word gives a
unique-word ratio of exactly 10% is ACCEPTED by `validate_long_text_input`
(the comparison `len(set(words)) < len(words) * 0.1` is strict, so equality
passes), refuting the claim that a ratio of exactly 10% is rejected. -/
theorem C3_counterexample :
    10 * (pySplit (("a a a a a a a a a a").data)).dedup.length =
      (pySplit (("a a a a a a a a a a").data)).length ∧
    validate_long_text_input ⟨3000, 500, ("sentence").data, 1, 100000⟩
      (("a a a a a a a a a a").data) = (true, "") := by
  decide

/-- C3 (amended): for non-empty text of acceptable length, the repetition
check rejects with message `"Text appears to be excessively repetitive"`
exactly when `10 * distinct < total` (ratio strictly below 10%), and a text
whose ratio is exactly 10% is accepted. -/
theorem C3_repetition (cfg : PyConfig) (text : Str)
    (h0 : pyStrip text ≠ [])
    (h1 : cfg.longTextMinLength ≤ ((pyStrip text).length : ℤ))
    (h2 : ((pyStrip text).length : ℤ) ≤ cfg.longTextMaxLength) :
    (10 * (pySplit text).dedup.length < (pySplit text).length →
      validate_long_text_input cfg text =
        (false, "Text appears to be excessively repetitive")) ∧
    (10 * (pySplit text).dedup.length = (pySplit text).length →
      validate_long_text_input cfg text = (true, "")) := by
  unfold validate_long_text_input
  dsimp only
  rw [if_neg h0, if_neg (not_lt.mpr h1), if_neg (not_lt.mpr h2)]
  constructor
  · intro h
    rw [if_pos h]
  · intro h
    rw [if_neg (by omega)]

set_option maxRecDepth 10000 in
theorem C3_repetition_witness :
    (10 * (pySplit (("b b b b b b b b b b b").data)).dedup.length <
        (pySplit (("b b b b b b b b b b b").data)).length →
      validate_long_text_input ⟨3000, 500, ("sentence").data, 1, 100000⟩
        (("b b b b b b b b b b b").data) =
        (false, "Text appears to be excessively repetitive")) ∧
    (10 * (pySplit (("b b b b b b b b b b b").data)).dedup.length =
        (pySplit (("b b b b b b b b b b b").data)).length →
      validate_long_text_input ⟨3000, 500, ("sentence").data, 1, 100000⟩
        (("b b b b b b b b b b b").data) = (true, "")) :=
  C3_repetition ⟨3000, 500, ("sentence").data, 1, 100000⟩
    (("b b b b b b b b b b b").data) (by decide) (by decide) (by decide)

/-! ## C2: which boundary the tier scanners actually pick -/

set_option maxRecDepth 10000 in
/-- C2 counterexample: on `"Hi mate! Hello Bob. tttttttttttttttttttt"` with
`max_length = 20`, the variant `". "` has an admissible occurrence ending at
20 (the true rightmost boundary), but the scan loop later overwrites
`best_split` with the `"! "` occurrence ending at 9, so the sentence tier
splits at 9 — not at the maximum end position over every variant. -/
theorem C2_counterexample :
    20 < (("Hi mate! Hello Bob. tttttttttttttttttttt").data).length ∧
    scanEndings (("Hi mate! Hello Bob. tttttttttttttttttttt").data) sentenceEndings 20 =
      some 9 ∧
    specRightmostBoundary (("Hi mate! Hello Bob. tttttttttttttttttttt").data)
      sentenceEndings 20 = some 20 ∧
    scanEndings (("Hi mate! Hello Bob. tttttttttttttttttttt").data) sentenceEndings 20 ≠
      specRightmostBoundary (("Hi mate! Hello Bob. tttttttttttttttttttt").data)
        sentenceEndings 20 ∧
    _try_split_at_sentences (("Hi mate! Hello Bob. tttttttttttttttttttt").data) 20 0 =
      some ((("Hi mate!").data), (("Hello Bob. tttttttttttttttttttt").data)) := by
  decide

/-- C2 (amended): the paragraph tier does pick the rightmost admissible
paragraph-break end, but the sentence and clause tiers pick the rightmost
admissible occurrence of the LAST delimiter variant (in scan order) that has
any admissible occurrence — each variant's scan overwrites `best_split` —
rather than the maximum end over all variants. -/
theorem C2_last_variant_wins (text : Str) (ml : ℕ) :
    scanEndings text sentenceEndings ml = lastVariantChoice text sentenceEndings ml ∧
    scanEndings text clauseDelimiters ml = lastVariantChoice text clauseDelimiters ml ∧
    ∀ best, paraBestLoop ml (paraMatches text) best =
      match (((paraMatches text).map Prod.snd).filter
          (fun b => decide (b ≤ ml))).getLast? with
      | some v => some v
      | none => best :=
  ⟨scanEndings_eq_lastVariantChoice (by decide),
   scanEndings_eq_lastVariantChoice (by decide),
   paraBestLoop_eq (paraMatches_valid text)⟩

/-! ## C7: fallback for unrecognised strategy names -/

theorem orS_some_ne {s d : Str} (hs : s ≠ []) : orS (some s) d = s := by
  unfold orS
  dsimp only
  rw [if_neg hs]

theorem streamingPreset_strategy {s : Str} (hs : s ≠ []) (cso : Option ℤ)
    (q : Option Str) : (streamingPreset cso (some s) q).2 = some s := by
  unfold streamingPreset
  rcases q with _ | qq
  · rfl
  · dsimp only
    by_cases h0 : qq = []
    · rw [if_pos h0]
    · rw [if_neg h0]
      by_cases h1 : qq = ("fast").data
      · rw [if_pos h1]
        dsimp only
        rw [orS_some_ne hs]
      · rw [if_neg h1]
        by_cases h2 : qq = ("balanced").data
        · rw [if_pos h2]
          dsimp only
          rw [orS_some_ne hs]
        · rw [if_neg h2]
          by_cases h3 : qq = ("high").data
          · rw [if_pos h3]
            dsimp only
            rw [orS_some_ne hs]
          · rw [if_neg h3]

set_option maxRecDepth 10000 in
/-- C7 counterexample: with the unrecognised strategy name `"bogus"`, the
streaming splitter falls back to the SENTENCE strategy, not the hierarchical
one: on `"A.\nB."` it returns `["A. B."]` while the hierarchical strategy
returns `["A.\nB."]`, refuting the claim that every splitter falls back to the
hierarchical default. -/
theorem C7_counterexample :
    split_text_for_streaming (("A.\nB.").data) (some 200) (some (("bogus").data)) none =
      [(("A. B.").data)] ∧
    _chunk_hierarchical (("A.\nB.").data) 200 = [(("A.\nB.").data)] ∧
    split_text_for_streaming (("A.\nB.").data) (some 200) (some (("bogus").data)) none ≠
      _chunk_hierarchical (("A.\nB.").data) 200 := by
  decide

/-- C7 (amended): an unrecognised strategy name never raises, but the two
dispatchers fall back differently: `chunk_text` falls back to the hierarchical
strategy on the stripped text, while `split_text_for_streaming` falls back to
the sentence strategy. -/
theorem C7_fallbacks (cfg : PyConfig) (text s : Str) (ml : Option ℤ)
    (cso : Option ℤ) (q : Option Str)
    (hs : s ≠ [])
    (h1 : pyLower s ≠ ("fixed").data)
    (h2 : pyLower s ≠ ("paragraph").data)
    (h3 : pyLower s ≠ ("word").data)
    (h4 : s ≠ ("paragraph").data)
    (h5 : s ≠ ("word").data)
    (h6 : s ≠ ("fixed").data) :
    chunk_text cfg text s ml =
      (if pyStrip text = [] then []
       else _chunk_hierarchical (pyStrip text) (chunkTextEffectiveMax cfg ml).toNat) ∧
    split_text_for_streaming text cso (some s) q =
      _split_by_sentences text (orI (streamingPreset cso (some s) q).1 200).toNat := by
  constructor
  · unfold chunk_text
    dsimp only
    by_cases hc : pyStrip text = []
    · rw [if_pos hc, if_pos hc]
    · rw [if_neg hc, if_neg hc, if_neg hs, if_neg h1, if_neg h2, if_neg h3]
  · unfold split_text_for_streaming
    dsimp only
    rw [streamingPreset_strategy hs cso q, orS_some_ne hs]
    by_cases hsent : s = ("sentence").data
    · rw [if_neg (by rw [hsent]; decide), if_pos hsent]
    · rw [if_neg h4, if_neg hsent, if_neg h5, if_neg h6]

set_option maxRecDepth 10000 in
theorem C7_fallbacks_witness :
    chunk_text ⟨3000, 500, ("sentence").data, 1, 100000⟩ (("A.\nB.").data)
      (("bogus").data) (some 200) =
      (if pyStrip (("A.\nB.").data) = [] then []
       else _chunk_hierarchical (pyStrip (("A.\nB.").data))
         (chunkTextEffectiveMax ⟨3000, 500, ("sentence").data, 1, 100000⟩
           (some 200)).toNat) ∧
    split_text_for_streaming (("A.\nB.").data) (some 200) (some (("bogus").data)) none =
      _split_by_sentences (("A.\nB.").data)
        (orI (streamingPreset (some 200) (some (("bogus").data)) none).1 200).toNat :=
  C7_fallbacks ⟨3000, 500, ("sentence").data, 1, 100000⟩ (("A.\nB.").data)
    (("bogus").data) (some 200) (some 200) none (by decide) (by decide) (by decide)
    (by decide) (by decide) (by decide) (by decide)
